import Mathlib

/-!
Verification of the striplog core (`striplog/interval.py`, `striplog/position.py`,
`striplog/striplog.py`) against its natural-language specification.

The embedding uses `ℚ` for the float depth values (all operations under test are
exact field arithmetic, so rationals are a faithful model of the Python floats on
the inputs considered).  An `Interval`'s `top`/`base` Positions are represented by
their `z` value: `Interval.__init__` and `Interval.__setattr__` coerce any raw
number `v` into `Position(middle=v)`, whose `z` is exactly `v`, and every
operation under test reads positions only through `.z` / `.middle` (which agree)
and compares Positions by `middle`.  Components are opaque ids (`ℕ`); the free
text `description` and the `data` map do not participate in any claim and are not
modelled.
-/

namespace StriplogSpec

/-- The `order` of an interval or striplog: `'depth'`, `'elevation'` or `'none'`. -/
inductive SOrder
  | depth
  | elevation
  | nil
deriving DecidableEq

/-- Embedding of `Interval`: `top`/`base` hold the `z` values of the two
`Position`s, `comps` the ordered list of (opaque) components, first = primary. -/
structure Iv where
  top : ℚ
  base : ℚ
  comps : List ℕ
deriving DecidableEq

/-- Python's `abs` on a float, written out so that it evaluates by kernel
reduction. -/
def pyAbs (q : ℚ) : ℚ := if q < 0 then -q else q

theorem pyAbs_of_nonneg {q : ℚ} (h : 0 ≤ q) : pyAbs q = q := by
  rw [pyAbs, if_neg (not_lt.mpr h)]

theorem pyAbs_of_nonpos {q : ℚ} (h : q ≤ 0) : pyAbs q = -q := by
  rw [pyAbs]
  split_ifs with hq
  · rfl
  · have : q = 0 := le_antisymm h (not_lt.mp hq)
    rw [this, neg_zero]

/-- `Interval.thickness`: `abs(self.base.z - self.top.z)`. -/
def Iv.thickness (iv : Iv) : ℚ := pyAbs (iv.base - iv.top)

/-- `Interval.kind`: the source literally returns `'point'` when `thickness > 0`
and `'interval'` otherwise (interval.py lines 246-248). -/
def Iv.kind (iv : Iv) : String := if iv.thickness > 0 then "point" else "interval"

/-- `Interval.order`: `'elevation'` if `top.z > base.z` else `'depth'`. -/
def Iv.order (iv : Iv) : SOrder := if iv.top > iv.base then .elevation else .depth

/-- `Interval.primary`: first component, or None. -/
def Iv.primary (iv : Iv) : Option ℕ := iv.comps.head?

/-- The relationship classification returned by `Interval.relationship`;
`partly` stands for the source's `'partially'`. -/
inductive Rel
  | contains
  | containedby
  | partly
  | touches
deriving DecidableEq

/-- `Interval.relationship(other)` (interval.py lines 316-335).  The comparator
`o` is `operator.lt` for depth order and `operator.gt` for elevation order. -/
def Iv.relationship (self other : Iv) : Option Rel :=
  let o : ℚ → ℚ → Bool :=
    match self.order with
    | .elevation => fun a b => decide (b < a)
    | _ => fun a b => decide (a < b)
  let top_inside := o self.top other.top && o other.top self.base
  let base_inside := o self.top other.base && o other.base self.base
  let above_below := o other.top self.top && o self.base other.base
  if top_inside && base_inside then some .contains
  else if above_below then some .containedby
  else if top_inside || base_inside then some .partly
  else if self.top = other.base ∨ self.base = other.top then some .touches
  else none

/-- `Interval.any_overlaps`: relationship lies in `{partially, contains, containedby}`. -/
def Iv.anyOverlaps (self other : Iv) : Bool :=
  match self.relationship other with
  | some r => [Rel.partly, Rel.contains, Rel.containedby].contains r
  | none => false

/-- `Interval.partially_overlaps`. -/
def Iv.partlyOverlaps (self other : Iv) : Bool :=
  self.relationship other = some Rel.partly

/-- `Interval.completely_contains`. -/
def Iv.completelyContains (self other : Iv) : Bool :=
  self.relationship other = some Rel.contains

/-- `Interval.is_contained_by`. -/
def Iv.isContainedBy (self other : Iv) : Bool :=
  self.relationship other = some Rel.containedby

/-- `Interval.touches`. -/
def Iv.touches (self other : Iv) : Bool :=
  self.relationship other = some Rel.touches

/-- `Interval.spans(d)`: order-appropriate non-strict containment
(`operator.le` for depth, `operator.ge` for elevation). -/
def Iv.spans (iv : Iv) (d : ℚ) : Bool :=
  match iv.order with
  | .elevation => decide (iv.base ≤ d) && decide (iv.top ≥ d)
  | _ => decide (d ≤ iv.base) && decide (iv.top ≤ d)

/-- `Interval.split_at(d)`: two copies of `self` with `base = d` resp. `top = d`
(upper, lower); raises `IntervalError` when `d` is not spanned. -/
def Iv.splitAt (iv : Iv) (d : ℚ) : Except String (Iv × Iv) :=
  if iv.spans d then .ok ({iv with base := d}, {iv with top := d})
  else .error "d must be within interval"

/-- `Interval.__lt__` (tops compared; direction flips with order). -/
def Iv.pyLt (a b : Iv) : Bool :=
  match a.order with
  | .elevation => decide (a.top < b.top)
  | _ => decide (a.top > b.top)

/-- `a > b` as derived by `functools.total_ordering` from `__lt__` and `__eq__`
(`Interval.__eq__` compares tops only). -/
def Iv.pyGt (a b : Iv) : Bool := !(a.pyLt b) && !(decide (a.top = b.top))

/-- Python `max(self, other)`: `other` only when strictly greater. -/
def pyMax (a b : Iv) : Iv := if b.pyGt a then b else a

/-- Python `min(self, other)`: `other` only when strictly less. -/
def pyMin (a b : Iv) : Iv := if b.pyLt a then b else a

/-- `Interval._explode(other)` (interval.py lines 395-422): decomposes two
overlapping same-order intervals into upper, middle, lower pieces.  Copies are
value copies here. -/
def Iv.explode (self other : Iv) : Except String (Iv × Iv × Iv) :=
  if self.order ≠ other.order then .error "self and other must have the same wayupness"
  else
    let uppermost := pyMax self other
    let lowermost := pyMin self other
    if self.partlyOverlaps other then
      match uppermost.splitAt lowermost.top, lowermost.splitAt uppermost.base with
      | .ok (upper, _), .ok (middle, lower) => .ok (upper, middle, lower)
      | .error e, _ => .error e
      | _, .error e => .error e
    else
      match uppermost.splitAt lowermost.base with
      | .error e => .error e
      | .ok (upper_temp, lower) =>
        match upper_temp.splitAt lowermost.top with
        | .error e => .error e
        | .ok (upper, _) => .ok (upper, lowermost, lower)

/-- The component merge performed by `Interval._combine` with `blend=True`:
start from `old_self.components` and append each of `other.components` not
already present. -/
def combineList (a b : List ℕ) : List ℕ :=
  b.foldl (fun acc c => if acc.contains c then acc else acc ++ [c]) a

/-- `Interval._combine(old_self, other, blend)` restricted to the fields the
claims observe: the receiving piece keeps its geometry and takes the blended
(or replaced) component list. -/
def Iv.combine (result old_self other : Iv) (blend : Bool) : Iv :=
  if blend then {result with comps := combineList old_self.comps other.comps}
  else {result with comps := other.comps}

/-- Result type of `Interval.union`: the untouched pair, or a single interval. -/
inductive UnionRes
  | pair (a b : Iv)
  | one (iv : Iv)
deriving DecidableEq

/-- `Interval.union(other, blend)` (interval.py lines 570-600): returns the
unmodified pair when the intervals neither touch nor overlap. -/
def Iv.union (self other : Iv) (blend : Bool) : UnionRes :=
  if !(self.touches other || self.anyOverlaps other) then .pair self other
  else
    let tb : ℚ × ℚ :=
      match self.order with
      | .elevation => (max self.top other.top, min self.base other.base)
      | _ => (min self.top other.top, max self.base other.base)
    .one (Iv.combine {self with top := tb.1, base := tb.2} self other blend)

/-- Result type of `Interval.difference`. -/
inductive DiffRes
  | one (iv : Iv)
  | pair (a b : Iv)
  | nil
deriving DecidableEq

/-- `Interval.difference(other)` (interval.py lines 602-623). -/
def Iv.difference (self other : Iv) : Except String DiffRes :=
  if self.touches other || !(self.anyOverlaps other) then .ok (.one self)
  else if self.completelyContains other then
    match self.explode other with
    | .error e => .error e
    | .ok (upper, _, lower) => .ok (.pair upper lower)
  else
    if self.pyGt other then
      match self.splitAt other.top with
      | .error e => .error e
      | .ok (a, _) => .ok (.one a)
    else if self.pyLt other then
      match self.splitAt other.base with
      | .error e => .error e
      | .ok (_, b) => .ok (.one b)
    else .ok .nil

/-- Truthiness of an optional float argument in Python: `None` and `0.0` are
falsy. -/
def truthy : Option ℚ → Bool
  | none => false
  | some v => decide (v ≠ 0)

/-- The state established by a successful `Position.__init__`. -/
structure PositionV where
  middle : Option ℚ
  upper : ℚ
  lower : ℚ
  xy : Option (ℚ × ℚ)
deriving DecidableEq

/-- `Position.__init__` (position.py lines 36-69).  The guard is literally
`if middle is None: if not (upper and lower): raise PositionError`, so a bound
equal to `0.0` is treated as missing.  `x` requires `y`; `y` alone is ignored.
`upper`/`lower` default to `middle` (the code path where both `middle` and a
bound are absent is unreachable past the guard; `getD 0` is never consulted). -/
def positionInit (middle upper lower x y : Option ℚ) : Except String PositionV :=
  if middle.isNone && !(truthy upper && truthy lower) then
    .error "You must provide middle, or upper and lower."
  else if x.isSome && y.isNone then
    .error "You must provide x and y."
  else
    .ok { middle := middle
          upper := upper.getD (middle.getD 0)
          lower := lower.getD (middle.getD 0)
          xy := match x, y with
                | some a, some b => some (a, b)
                | _, _ => none }

/-- Stable insertion step: place `x` before the first element `y` with
`le x y`.  Earlier elements of the original list are inserted later in
`isortBy`, so ties keep their original order, exactly like Python's stable
`list.sort` / `sorted`. -/
def insSorted {α : Type} (le : α → α → Bool) (x : α) : List α → List α
  | [] => [x]
  | y :: l => if le x y then x :: y :: l else y :: insSorted le x l

/-- Stable sort (insertion sort), the embedding of Python's `sorted` /
`list.sort` with a key function: `le` compares keys non-strictly. -/
def isortBy {α : Type} (le : α → α → Bool) : List α → List α
  | [] => []
  | x :: l => insSorted le x (isortBy le l)

/-- The `order` argument of `Striplog.__init__` (first-letter dispatch on the
string: `'auto'`, `'none'`, `'depth'`, anything else meaning elevation). -/
inductive OrderArg
  | auto
  | depth
  | elevation
  | nil
deriving DecidableEq

/-- The sanity check and order-forcing sort of `Striplog.__init__` (striplog.py
lines 76-104) for a resolved order string: any interval violating the declared
base/top relation raises, otherwise the list is stably sorted by top
(ascending; descending for elevation). -/
def striplogCheck {α : Type} (tp bs : α → ℚ) (l : List α) :
    SOrder → Except String (SOrder × List α)
  | .nil =>
    if l.any (fun iv => decide (bs iv ≠ tp iv)) then
      .error "'None' order specified but tops != bases."
    else .ok (.nil, isortBy (fun a b => decide (tp a ≤ tp b)) l)
  | .depth =>
    if l.any (fun iv => decide (bs iv < tp iv)) then
      .error "Depth order specified but base above top."
    else .ok (.depth, isortBy (fun a b => decide (tp a ≤ tp b)) l)
  | .elevation =>
    if l.any (fun iv => decide (tp iv < bs iv)) then
      .error "Elevation order specified but base above top."
    else .ok (.elevation, isortBy (fun a b => decide (tp b ≤ tp a)) l)

/-- `Striplog.__init__` (striplog.py lines 52-109), generic in the element type
(`tp`/`bs` project the top/base `z` values): empty-list check, `'auto'`
detection (all equal → none, all `base >= top` → depth, all `base <= top` →
elevation, otherwise a hard error), then the per-order check and sort. -/
def striplogInitG {α : Type} (tp bs : α → ℚ) (l : List α) (order : OrderArg) :
    Except String (SOrder × List α) :=
  if l.isEmpty then .error "Cannot create an empty Striplog."
  else
    match order with
    | .auto =>
      if l.all (fun iv => decide (bs iv = tp iv)) then striplogCheck tp bs l .nil
      else if l.all (fun iv => decide (bs iv ≥ tp iv)) then striplogCheck tp bs l .depth
      else if l.all (fun iv => decide (bs iv ≤ tp iv)) then striplogCheck tp bs l .elevation
      else .error "Could not determine order from tops and bases."
    | .depth => striplogCheck tp bs l .depth
    | .elevation => striplogCheck tp bs l .elevation
    | .nil => striplogCheck tp bs l .nil

/-- `Striplog.__init__` on intervals. -/
def striplogInit (l : List Iv) (order : OrderArg) : Except String (SOrder × List Iv) :=
  striplogInitG Iv.top Iv.base l order

/-- `Interval.merge(other, blend)` (interval.py lines 528-568): explode,
combine the middle, and build a Striplog from the resulting pieces. -/
def Iv.imerge (self other : Iv) (blend : Bool) : Except String (SOrder × List Iv) :=
  if !(self.anyOverlaps other) then .error "self must at least partially overlap other"
  else
    match self.explode other with
    | .error e => .error e
    | .ok (upper, middle, lower) =>
      let self_is_uppermost := decide (self.top = upper.top)
      let middle := Iv.combine middle self other blend
      let result :=
        if self.partlyOverlaps other && !blend then
          if self_is_uppermost then [upper, other] else [other, lower]
        else [lower, middle, upper]
      if self.order = .depth then striplogInit result.reverse .auto
      else striplogInit result .auto

/-- Result of `Striplog.__find_incongruities`: `None`, a list of indices, or a
new Striplog of synthetic intervals. -/
inductive InconOut
  | nothing
  | indices (l : List ℕ)
  | strip (so : SOrder) (l : List Iv)
deriving DecidableEq

/-- The scan inside `__find_incongruities`: for each consecutive pair compare
boundary `one` of the upper with boundary `two` of the next using `cmp`,
recording hit indices and synthetic `Interval(top, base)` gap intervals. -/
def inconScan (cmp : ℚ → ℚ → Bool) (one two : Iv → ℚ) : List Iv → ℕ → List ℕ × List Iv
  | iv :: next :: rest, i =>
    let r := inconScan cmp one two (next :: rest) (i + 1)
    if cmp (one iv) (two next) then (i :: r.1, ⟨one iv, two next, []⟩ :: r.2)
    else r
  | _, _ => ([], [])

/-- `Striplog.__find_incongruities(op, index)` (striplog.py lines 1808-1847).
`isGt = true` is `operator.gt` (`find_overlaps`), `false` is `operator.lt`
(`find_gaps`).  For depth order the compared boundaries are (`base`, next
`top`), otherwise (`top`, next `base`). -/
def findIncon (so : SOrder) (l : List Iv) (isGt index : Bool) : Except String InconOut :=
  if l.length = 1 then .ok .nothing
  else
    let cmp : ℚ → ℚ → Bool :=
      if isGt then fun a b => decide (b < a) else fun a b => decide (a < b)
    let one : Iv → ℚ := if so = .depth then Iv.base else Iv.top
    let two : Iv → ℚ := if so = .depth then Iv.top else Iv.base
    let r := inconScan cmp one two l 0
    if index && !r.1.isEmpty then .ok (.indices r.1)
    else if !r.2.isEmpty then (striplogInit r.2 .auto).map (fun s => .strip s.1 s.2)
    else .ok .nothing

/-- `Striplog.find_overlaps(index)`. -/
def findOverlaps (so : SOrder) (l : List Iv) (index : Bool) : Except String InconOut :=
  findIncon so l true index

/-- `Striplog.find_gaps(index)`. -/
def findGaps (so : SOrder) (l : List Iv) (index : Bool) : Except String InconOut :=
  findIncon so l false index

/-- `Striplog.read_at(d)` (striplog.py lines 1706-1723): first interval, in
stored order, spanning `d`. -/
def readAt : List Iv → ℚ → Option Iv
  | [], _ => none
  | iv :: rest, d => if iv.spans d then some iv else readAt rest d

/-- `Striplog.read_at(d, index=True)`: the index of that interval. -/
def readAtIndex : List Iv → ℚ → Option ℕ
  | [], _ => none
  | iv :: rest, d => if iv.spans d then some 0 else (readAtIndex rest d).map (· + 1)

/-- `Interval.intersect(other, blend)` (interval.py lines 506-526). -/
def Iv.intersect (self other : Iv) (blend : Bool) : Except String Iv :=
  if !(self.anyOverlaps other) then .error "self must at least partially overlap other"
  else
    match self.explode other with
    | .error e => .error e
    | .ok (_, mid, _) => .ok (Iv.combine mid self other blend)

/-- An entry of `Striplog._table`: `('T'|'B', depth, source index)`;
`isTop = true` is `'T'`.  The depth recorded is `top.middle` / `base.middle`,
which equals our `top`/`base`. -/
structure TEntry where
  isTop : Bool
  depth : ℚ
  idx : ℕ
deriving DecidableEq

/-- The table-building loop of `Striplog._table` (striplog.py lines
2419-2432): a `('T', top, i)` and `('B', base, i)` entry per interval,
indices counted from `k`. -/
def stripTableRaw : ℕ → List Iv → List TEntry
  | _, [] => []
  | k, iv :: rest =>
    TEntry.mk true iv.top k :: TEntry.mk false iv.base k :: stripTableRaw (k + 1) rest

/-- `Striplog._table`: the raw entries, stably sorted by depth. -/
def stripTable (l : List Iv) : List TEntry :=
  isortBy (fun a b => decide (a.depth ≤ b.depth)) (stripTableRaw 0 l)

/-- One iteration of the sweep in `Striplog._merge_table` (striplog.py lines
2450-2508).  `le a b` is the priority comparison "b wins over or ties a": the
source's `merge = op(this, current)` with `op = operator.ge` (or `le` when
`reverse`) is `le (A current) (A this)`, and the source's
`sorted(stack, key=attr, reverse=reverse)` keeps the stack stably ascending in
that same priority, highest last.  `stack[-1]` on an empty stack is an
IndexError, `stack.remove` of a missing element a ValueError. -/
def mergeStep (A : ℕ → ℚ) (le : ℚ → ℚ → Bool) (st : List TEntry × List ℕ) (e : TEntry) :
    Except String (List TEntry × List ℕ) :=
  let merge : Bool :=
    match st.2.getLast? with
    | some cur => le (A cur) (A e.idx)
    | none => true
  if e.isTop then
    let merged :=
      if merge then
        (match st.2.getLast? with
         | some cur => st.1 ++ [TEntry.mk false e.depth cur]
         | none => st.1) ++ [e]
      else st.1
    .ok (merged, isortBy (fun i j => le (A i) (A j)) (st.2 ++ [e.idx]))
  else
    match st.2.getLast? with
    | none => .error "IndexError"
    | some cur =>
      if !st.2.contains e.idx then .error "ValueError"
      else
        let hm : Bool := decide (e.idx = cur)
        let merged := if hm then st.1 ++ [e] else st.1
        let stack := st.2.erase e.idx
        let merged :=
          match stack.getLast? with
          | some c2 => if hm then merged ++ [TEntry.mk true e.depth c2] else merged
          | none => merged
        .ok (merged, stack)

/-- The sweep loop of `Striplog._merge_table`. -/
def mergeTableRun (A : ℕ → ℚ) (le : ℚ → ℚ → Bool) :
    List TEntry → List TEntry × List ℕ → Except String (List TEntry × List ℕ)
  | [], st => .ok st
  | e :: es, st =>
    match mergeStep A le st e with
    | .error er => .error er
    | .ok st' => mergeTableRun A le es st'

/-- The priority comparison of `_merge_table`: `mergeLe reverse a b` says `b`
wins over or ties `a` (the source's `op = operator.le if reverse else
operator.ge` with swapped operands). -/
def mergeLe (reverse : Bool) : ℚ → ℚ → Bool :=
  if reverse then fun a b => decide (b ≤ a) else fun a b => decide (a ≤ b)

/-- `Striplog._merge_table(attr, reverse)` (striplog.py lines 2434-2510).
`A` gives the priority attribute of each interval by its index (the source
reads `getattr(self[idx], attr)`, falling back to the primary component; the
claims assume the attribute is present). -/
def mergeTable (A : ℕ → ℚ) (reverse : Bool) (l : List Iv) : Except String (List TEntry) :=
  (mergeTableRun A (mergeLe reverse) (stripTable l) ([], [])).map (fun st => st.1)

/-- An output interval of `Striplog._striplog_from_merge_table`:
`self[src].copy()` with its top and base overwritten, so it carries the
content (components, description, data) of source interval `src`. -/
structure Piece where
  top : ℚ
  base : ℚ
  src : ℕ
deriving DecidableEq

/-- `zip(table[::2], table[1::2])`: consecutive entry pairs, trailing odd
entry dropped. -/
def pairUp : List TEntry → List (TEntry × TEntry)
  | a :: b :: rest => (a, b) :: pairUp rest
  | _ => []

/-- The interval list built by `_striplog_from_merge_table` (striplog.py
lines 2512-2534): Top/Base pairs become intervals, zero-thickness ones
discarded. -/
def mergePieces (tbl : List TEntry) : List Piece :=
  (pairUp tbl).filterMap
    (fun p => if p.1.depth = p.2.depth then none else some (Piece.mk p.1.depth p.2.depth p.1.idx))

/-- `Striplog._striplog_from_merge_table(table)`: the pieces are handed to
the `Striplog` constructor (order `'auto'`). -/
def striplogFromMergeTable (tbl : List TEntry) : Except String (SOrder × List Piece) :=
  striplogInitG Piece.top Piece.base (mergePieces tbl) .auto

/-- `Striplog.merge(attr, reverse)` (striplog.py lines 2536-2550). -/
def stripMerge (A : ℕ → ℚ) (reverse : Bool) (l : List Iv) :
    Except String (SOrder × List Piece) :=
  match mergeTable A reverse l with
  | .error e => .error e
  | .ok tbl => striplogFromMergeTable tbl

/-- The inner loop of `Striplog.merge_overlaps` (striplog.py lines 2043-2057):
each initially found overlap index, shifted by the running `overlaps += 1`
offset, has its two intervals removed and replaced by their `Interval.merge`
striplog. -/
def mergeOverlapsLoop (so : SOrder) : List ℕ → ℕ → List Iv → Except String (List Iv)
  | [], _, l => .ok l
  | h :: rest, offset, l =>
    let ov := h + offset
    match l.get? ov, l.get? (ov + 1) with
    | some before, some after =>
      let l' := (l.eraseIdx ov).eraseIdx ov
      match before.imerge after true with
      | .error e => .error e
      | .ok seg => mergeOverlapsLoop so rest (offset + 1) (l'.take ov ++ seg.2 ++ l'.drop ov)
    | _, _ => .error "IndexError"

/-- `Striplog.merge_overlaps()` (striplog.py lines 2028-2059).  The guard is
`if not np.array(overlaps).any(): return`, so a hit list whose entries are all
the index `0` counts as "no overlaps" and nothing is merged. -/
def mergeOverlaps (so : SOrder) (l : List Iv) : Except String (List Iv) :=
  let hits : List ℕ :=
    match findOverlaps so l true with
    | .ok (.indices h) => h
    | _ => []
  if !hits.any (fun i => decide (i ≠ 0)) then .ok l
  else mergeOverlapsLoop so hits 0 l

/-- Truthiness of an optional int argument in Python (`None` and `0` falsy). -/
def truthyNat : Option ℕ → Bool
  | none => false
  | some n => decide (n ≠ 0)

/-- Thickness of `self[i]` used as the sort key in `Striplog.thinnest` (the
default is never consulted: indices come from `range(len(self))`). -/
def thAt (l : List Iv) (i : ℕ) : ℚ := ((l.get? i).map Iv.thickness).getD 0

/-- `Striplog.thinnest(n, index=True)` (striplog.py lines 2125-2151):
`sorted(range(len(self)), key=thickness)[:n]` with Python's stable sort. -/
def thinnestIdx (l : List Iv) (n : ℕ) : List ℕ :=
  (isortBy (fun i j => decide (thAt l i ≤ thAt l j)) (List.range l.length)).take n

/-- One `del strip[j]` with Python's negative-index wrapping (out-of-range
deletes, which raise IndexError in Python, do not occur in the claims'
inputs). -/
def pyDelAt (l : List Iv) (j : ℤ) : List Iv :=
  let j' := if j < 0 then j + l.length else j
  l.eraseIdx j'.toNat

/-- `Striplog.__delitem__` with a list key (striplog.py lines 139-148):
indices are pre-shifted by their position and deleted in turn. -/
def delItems (l : List Iv) (key : List ℕ) : List Iv :=
  (key.enum.map (fun p => (p.2 : ℤ) - (p.1 : ℤ))).foldl pyDelAt l

/-- `Striplog.prune(limit, n, percentile, keep_ends)` (striplog.py lines
1875-1909).  It operates on `strip = self.copy()` and returns it; the receiver
is never written.  Selection arguments are tested for Python truthiness, and a
later truthy argument overrides an earlier one. -/
def prune (l : List Iv) (limit : Option ℚ) (n : Option ℕ) (percentile : Option ℚ)
    (keep_ends : Bool) : Except String (List Iv) :=
  if !(truthy limit || truthyNat n || truthy percentile) then
    .error "You must provide a limit or n or percentile for pruning."
  else
    let pr : List ℕ :=
      if truthy limit then
        l.enum.filterMap (fun p => if p.2.thickness < limit.getD 0 then some p.1 else none)
      else []
    let pr := if truthyNat n then thinnestIdx l (n.getD 0) else pr
    let pr :=
      if truthy percentile then
        thinnestIdx l (Int.toNat ⌊((l.length : ℚ) * percentile.getD 0) / 100⌋)
      else pr
    let pr :=
      if keep_ends then
        let pr := if pr.contains 0 then pr.erase 0 else pr
        let lst := l.length - 1
        if pr.contains lst then pr.erase lst else pr
      else pr
    .ok (delItems l pr)

/-- One gap-closing step of `Striplog.anneal` (striplog.py lines 1936-1960).
In the elevation branch of mode `'middle'` the source computes
`(after.base - before.top) / 2` on two `Position` objects, which have no
subtraction: a TypeError. -/
def annealGapStep (so : SOrder) (mode : String) (l : List Iv) (gap : ℕ) :
    Except String (List Iv) :=
  match l.get? gap, l.get? (gap + 1) with
  | some before, some after =>
    if mode = "middle" then
      match so with
      | .depth =>
        let t := (after.top - before.base) / 2
        .ok ((l.set gap {before with base := before.base + t}).set
              (gap + 1) {after with top := after.top - t})
      | _ => .error "TypeError: unsupported operand type for Position - Position"
    else if mode = "down" then
      match so with
      | .depth => .ok (l.set gap {before with base := after.top})
      | _ => .ok (l.set gap {before with top := after.base})
    else if mode = "up" then
      match so with
      | .depth => .ok (l.set (gap + 1) {after with top := before.base})
      | _ => .ok (l.set (gap + 1) {after with base := before.top})
    else .ok l
  | _, _ => .error "IndexError"

/-- The gap loop of `Striplog.anneal`. -/
def annealLoop (so : SOrder) (mode : String) : List ℕ → List Iv → Except String (List Iv)
  | [], l => .ok l
  | g :: gs, l =>
    match annealGapStep so mode l g with
    | .error e => .error e
    | .ok l' => annealLoop so mode gs l'

/-- `Striplog.anneal(mode)` (striplog.py lines 1911-1962): operates on
`strip = deepcopy(self)` and returns it (`None` when `find_gaps` finds
nothing); the receiver is never written. -/
def anneal (so : SOrder) (l : List Iv) (mode : String) :
    Except String (Option (List Iv)) :=
  match findGaps so l true with
  | .error e => .error e
  | .ok (.indices gaps) =>
    if gaps.isEmpty then .ok none
    else (annealLoop so mode gaps l).map some
  | .ok _ => .ok none

/-- `Striplog.start` (striplog.py lines 243-255). -/
def stripStart (so : SOrder) (l : List Iv) : Option ℚ :=
  match so with
  | .depth => (l.map Iv.top).min?
  | _ => (l.map Iv.base).min?

/-- `Striplog.stop` (striplog.py lines 258-268). -/
def stripStop (so : SOrder) (l : List Iv) : Option ℚ :=
  match so with
  | .depth => (l.map Iv.base).max?
  | _ => (l.map Iv.top).max?

/-- The list computed by `Striplog.crop` (striplog.py lines 2322-2358); with
`copy=False` it is assigned to `self.__list`, with `copy=True` it is passed to
the `Striplog` constructor.  A `read_at` miss makes `self[None]` raise. -/
def cropList (so : SOrder) (l : List Iv) (e1 e2 : Option ℚ) : Except String (List Iv) :=
  let ex1 := match e1 with | none => (stripStart so l).getD 0 | some v => v
  let ex2 := match e2 with | none => (stripStop so l).getD 0 | some v => v
  match readAtIndex l ex1, readAtIndex l ex2 with
  | some fi, some li =>
    match l.get? fi, l.get? li with
    | some fiv, some liv =>
      match fiv.splitAt ex1, liv.splitAt ex2 with
      | .ok f, .ok la =>
        let new_list := (l.drop fi).take (li + 1 - fi)
        if new_list.isEmpty then .error "IndexError"
        else
          let new_list := new_list.set 0 f.2
          .ok (new_list.set (new_list.length - 1) la.1)
      | .error e, _ => .error e
      | _, .error e => .error e
    | _, _ => .error "IndexError"
  | _, _ => .error "TypeError: self[None]"

/-- The inner loop of `Striplog.union` (striplog.py lines 1996-2001): `iv` is
repeatedly replaced by `iv.union(jv)` for each overlapping `jv` (under
`any_overlaps` the union is always a single interval; the `pair` branch is
unreachable). -/
def unionInner : Iv → List Iv → Iv
  | iv, [] => iv
  | iv, jv :: rest =>
    unionInner
      (if iv.anyOverlaps jv then
        match iv.union jv true with
        | .one r => r
        | .pair a _ => a
      else iv) rest

/-- `Striplog.union(other)` (striplog.py lines 1982-2002). -/
def stripUnion (l other : List Iv) : Except String (SOrder × List Iv) :=
  striplogInit (l.map (fun iv => unionInner iv other)) .auto

/-- `Striplog.intersect(other)` (striplog.py lines 2004-2026): pairwise
`Interval.intersect`, IntervalErrors skipped. -/
def stripIntersect (l other : List Iv) : Except String (SOrder × List Iv) :=
  striplogInit
    ((l.map (fun iv => other.filterMap (fun jv =>
      match iv.intersect jv true with
      | .ok r => some r
      | .error _ => none))).flatten) .auto

/-- The state a `Striplog` object carries: its declared order and its private
interval list `self.__list`. -/
structure SState where
  order : SOrder
  ivs : List Iv
deriving DecidableEq

/-- A call `self.prune(...)`: the receiver state is returned unchanged (the
method works on `self.copy()`) alongside the returned new striplog's list. -/
def pruneCall (s : SState) (limit : Option ℚ) (n : Option ℕ) (percentile : Option ℚ)
    (keep_ends : Bool) : SState × Except String (List Iv) :=
  (s, prune s.ivs limit n percentile keep_ends)

/-- A call `self.anneal(mode)`: receiver unchanged (works on a deepcopy),
result returned. -/
def annealCall (s : SState) (mode : String) : SState × Except String (Option (List Iv)) :=
  (s, anneal s.order s.ivs mode)

/-- A call `self.merge_overlaps()`: the receiver's list is spliced in place
and the method returns `None`. -/
def mergeOverlapsCall (s : SState) : Except String SState :=
  (mergeOverlaps s.order s.ivs).map (fun l' => {s with ivs := l'})

/-- A call `self.crop(extent, copy=False)`: `self.__list` is overwritten with
the cropped list and the method returns `None`. -/
def cropCall (s : SState) (e1 e2 : Option ℚ) : Except String SState :=
  (cropList s.order s.ivs e1 e2).map (fun l' => {s with ivs := l'})

/-- A call `self.union(other)`: receiver unchanged (iterates a deepcopy), new
Striplog returned. -/
def unionCall (s other : SState) : SState × Except String (SOrder × List Iv) :=
  (s, stripUnion s.ivs other.ivs)

/-- A call `self.intersect(other)`: receiver unchanged, new Striplog returned. -/
def intersectCall (s other : SState) : SState × Except String (SOrder × List Iv) :=
  (s, stripIntersect s.ivs other.ivs)

/-- A call `self.merge(attr, reverse)`: receiver unchanged (the sweep only
reads and copies), new Striplog returned. -/
def mergeCall (s : SState) (A : ℕ → ℚ) (reverse : Bool) :
    SState × Except String (SOrder × List Piece) :=
  (s, stripMerge A reverse s.ivs)

/-! ### Library lemmas about the stable insertion sort -/

theorem mem_insSorted {α : Type} (le : α → α → Bool) (x : α) (l : List α) (z : α) :
    z ∈ insSorted le x l ↔ z = x ∨ z ∈ l := by
  induction l with
  | nil => simp [insSorted]
  | cons y t ih =>
    simp only [insSorted]
    split
    · simp only [List.mem_cons]
      try tauto
    · simp only [List.mem_cons, ih]
      try tauto

theorem mem_isortBy {α : Type} (le : α → α → Bool) (l : List α) (z : α) :
    z ∈ isortBy le l ↔ z ∈ l := by
  induction l with
  | nil => simp [isortBy]
  | cons y t ih =>
    simp [isortBy, mem_insSorted, ih, List.mem_cons]

theorem head?_insSorted {α : Type} (le : α → α → Bool) (x : α) (l : List α) (w : α)
    (h : (insSorted le x l).head? = some w) : w = x ∨ l.head? = some w := by
  cases l with
  | nil => simp [insSorted] at h; simp [h]
  | cons y t =>
    simp only [insSorted] at h
    split at h
    · simp at h; simp [h]
    · simp at h; simp [h]

theorem chain'_insSorted {α : Type} (le : α → α → Bool)
    (htot : ∀ a b, le a b = true ∨ le b a = true) (x : α) (l : List α)
    (h : List.Chain' (fun a b => le a b = true) l) :
    List.Chain' (fun a b => le a b = true) (insSorted le x l) := by
  induction l with
  | nil => simp [insSorted]
  | cons y t ih =>
    simp only [insSorted]
    split
    · exact h.cons ‹_›
    · rename_i hxy
      have hyx : le y x = true := by
        rcases htot x y with hc | hc
        · exact absurd hc hxy
        · exact hc
      rw [List.chain'_cons'] at h ⊢
      refine ⟨?_, ih h.2⟩
      intro w hw
      rcases head?_insSorted le x t w hw with rfl | hw'
      · exact hyx
      · exact h.1 w hw'

theorem chain'_isortBy {α : Type} (le : α → α → Bool)
    (htot : ∀ a b, le a b = true ∨ le b a = true) (l : List α) :
    List.Chain' (fun a b => le a b = true) (isortBy le l) := by
  induction l with
  | nil => simp [isortBy]
  | cons y t ih => exact chain'_insSorted le htot y (isortBy le t) ih

theorem isortBy_of_chain' {α : Type} (le : α → α → Bool) (l : List α)
    (h : List.Chain' (fun a b => le a b = true) l) : isortBy le l = l := by
  induction l with
  | nil => rfl
  | cons y t ih =>
    rw [List.chain'_cons'] at h
    rw [isortBy, ih h.2]
    cases t with
    | nil => rfl
    | cons z t2 =>
      simp only [insSorted]
      rw [if_pos (h.1 z rfl)]

theorem length_insSorted {α : Type} (le : α → α → Bool) (x : α) (l : List α) :
    (insSorted le x l).length = l.length + 1 := by
  induction l with
  | nil => rfl
  | cons y t ih =>
    simp only [insSorted]
    split
    · simp
    · simp [ih]

theorem length_isortBy {α : Type} (le : α → α → Bool) (l : List α) :
    (isortBy le l).length = l.length := by
  induction l with
  | nil => rfl
  | cons y t ih => simp [isortBy, length_insSorted, ih]

/-! ### C6 -/

/-- C6: the claim says `kind` is `'point'` exactly when `thickness == 0`, and
`'interval'` otherwise, matching the method's own docstring; but the source
tests `if self.thickness > 0: return 'point'`, so the labels are swapped: the
interval (0, 10) has thickness 10 and `kind == 'point'`. -/
theorem kind_is_inverted :
    (Iv.mk 0 10 []).thickness = 10 ∧ (Iv.mk 0 10 []).kind = "point"
      ∧ (Iv.mk 5 5 []).thickness = 0 ∧ (Iv.mk 5 5 []).kind = "interval" := by
  refine ⟨?_, ?_, ?_, ?_⟩ <;> norm_num [Iv.kind, Iv.thickness, pyAbs]

/-! ### C9 -/

/-- C9: the claim says construction succeeds whenever both `upper` and `lower`
are supplied, for any float values including `0.0`; but the guard
`if not (upper and lower)` uses Python truthiness, so `upper=0.0, lower=1.0`
(with no `middle`) raises PositionError even though both bounds are supplied.
With a nonzero pair it succeeds, and `x` without `y` raises. -/
theorem position_init_rejects_zero_bound :
    positionInit none (some 0) (some 1) none none
        = .error "You must provide middle, or upper and lower."
      ∧ positionInit none (some 2) (some 1) none none
        = .ok ⟨none, 2, 1, none⟩
      ∧ positionInit (some 3) none none (some 1) none
        = .error "You must provide x and y." := by
  refine ⟨?_, ?_, ?_⟩ <;> rfl

/-! ### C10 -/

/-- C10: `read_at(d)` returns the first interval, in stored order, whose
`spans` test accepts `d`, and `None` when no interval spans `d`; with
`index=True` it returns that interval's index instead (or `None`). -/
theorem read_at_spec (l : List Iv) (d : ℚ) :
    (readAt l d = none ↔ ∀ iv ∈ l, iv.spans d = false)
  ∧ (∀ iv, readAt l d = some iv → iv.spans d = true ∧
      ∃ i, readAtIndex l d = some i ∧ ∃ h : i < l.length,
        l.get ⟨i, h⟩ = iv ∧ ∀ j, (hj : j < l.length) → j < i →
          (l.get ⟨j, hj⟩).spans d = false)
  ∧ (readAtIndex l d = none ↔ readAt l d = none) := by
  induction l with
  | nil => simp [readAt, readAtIndex]
  | cons a t ih =>
    obtain ⟨ih1, ih2, ih3⟩ := ih
    by_cases hs : a.spans d = true
    · refine ⟨?_, ?_, ?_⟩
      · simp [readAt, hs]
      · intro iv hiv
        rw [readAt, if_pos hs, Option.some_inj] at hiv
        subst hiv
        refine ⟨hs, 0, ?_, ?_, rfl, ?_⟩
        · rw [readAtIndex, if_pos hs]
        · simp
        · intro j hj hj0
          omega
      · simp [readAt, readAtIndex, hs]
    · have hs' : a.spans d = false := by simpa using hs
      have e1 : readAt (a :: t) d = readAt t d := by rw [readAt, if_neg hs]
      have e2 : readAtIndex (a :: t) d = (readAtIndex t d).map (· + 1) := by
        rw [readAtIndex, if_neg hs]
      refine ⟨?_, ?_, ?_⟩
      · rw [e1, ih1]
        constructor
        · intro H iv hiv
          rcases List.mem_cons.mp hiv with rfl | hm
          · exact hs'
          · exact H iv hm
        · intro H iv hiv
          exact H iv (List.mem_cons_of_mem _ hiv)
      · intro iv hiv
        rw [e1] at hiv
        obtain ⟨hsp, i, hidx, hlt, hget, hfirst⟩ := ih2 iv hiv
        refine ⟨hsp, i + 1, ?_, ?_, ?_, ?_⟩
        · rw [e2, hidx]; rfl
        · simpa using Nat.succ_lt_succ hlt
        · simpa using hget
        · intro j hj hj1
          cases j with
          | zero => exact hs'
          | succ j' =>
            have hj' : j' < t.length := by simpa using hj
            have := hfirst j' hj' (by omega)
            simpa using this
      · rw [e1, e2, ← ih3]
        simp

/-- C10 witness: `read_at` at depth 7 on a concrete two-interval striplog. -/
theorem read_at_spec_witness :
    readAt [Iv.mk 0 5 [], Iv.mk 5 10 []] 7 = some (Iv.mk 5 10 []) ∧
      ((Iv.mk 5 10 []).spans 7 = true ∧
        ∃ i, readAtIndex [Iv.mk 0 5 [], Iv.mk 5 10 []] 7 = some i ∧
          ∃ h : i < ([Iv.mk 0 5 [], Iv.mk 5 10 []]).length,
            ([Iv.mk 0 5 [], Iv.mk 5 10 []]).get ⟨i, h⟩ = Iv.mk 5 10 [] ∧
            ∀ j, (hj : j < ([Iv.mk 0 5 [], Iv.mk 5 10 []]).length) → j < i →
              (([Iv.mk 0 5 [], Iv.mk 5 10 []]).get ⟨j, hj⟩).spans 7 = false) :=
  ⟨by decide, (read_at_spec [Iv.mk 0 5 [], Iv.mk 5 10 []] 7).2.1 _ (by decide)⟩

/-! ### C7 -/

/-- The hit condition tested by `__find_incongruities` for a consecutive pair:
order-appropriate boundaries compared with `>` (`isGt`, overlaps) or `<`
(gaps). -/
def inconHit (so : SOrder) (isGt : Bool) (u v : Iv) : Bool :=
  (if isGt then fun a b : ℚ => decide (b < a) else fun a b => decide (a < b))
    ((if so = SOrder.depth then Iv.base else Iv.top) u)
    ((if so = SOrder.depth then Iv.top else Iv.base) v)

theorem inconScan_eq_nil (cmp : ℚ → ℚ → Bool) (one two : Iv → ℚ) (l : List Iv) (i : ℕ)
    (h : List.Chain' (fun u v => cmp (one u) (two v) = false) l) :
    inconScan cmp one two l i = ([], []) := by
  induction l generalizing i with
  | nil => rfl
  | cons x t ih =>
    cases t with
    | nil => rfl
    | cons y t2 =>
      rw [List.chain'_cons] at h
      rw [inconScan, ih (i + 1) h.2, if_neg (by simp [h.1])]

theorem findIncon_nothing (so : SOrder) (l : List Iv) (isGt ix : Bool)
    (h : List.Chain' (fun u v => inconHit so isGt u v = false) l) :
    findIncon so l isGt ix = .ok .nothing := by
  rw [findIncon]
  split
  · rfl
  · have hs := inconScan_eq_nil
      (if isGt then fun a b => decide (b < a) else fun a b => decide (a < b))
      (if so = SOrder.depth then Iv.base else Iv.top)
      (if so = SOrder.depth then Iv.top else Iv.base) l 0 ?_
    · simp only [hs]
      simp
    · exact h

/-- C7: `find_gaps` and `find_overlaps` return `None` when no consecutive pair
has a gap resp. overlap (in particular always for single-interval striplogs),
and `Interval.union` on same-order intervals that neither touch nor overlap
returns the unmodified `(self, other)` pair without raising. -/
theorem noop_signals (so : SOrder) (l : List Iv) (ix : Bool) (a b : Iv) :
    (l.length = 1 →
        findGaps so l ix = .ok .nothing ∧ findOverlaps so l ix = .ok .nothing)
  ∧ (List.Chain' (fun u v => inconHit so false u v = false) l →
        findGaps so l ix = .ok .nothing)
  ∧ (List.Chain' (fun u v => inconHit so true u v = false) l →
        findOverlaps so l ix = .ok .nothing)
  ∧ (a.order = b.order → a.touches b = false → a.anyOverlaps b = false →
        ∀ bl, a.union b bl = .pair a b) := by
  refine ⟨?_, ?_, ?_, ?_⟩
  · intro h1
    have e : ∀ g, findIncon so l g ix = .ok .nothing := by
      intro g
      rw [findIncon]
      simp [h1]
    exact ⟨e false, e true⟩
  · intro h
    exact findIncon_nothing so l false ix h
  · intro h
    exact findIncon_nothing so l true ix h
  · intro _ ht hov bl
    rw [Iv.union, if_pos (by simp [ht, hov])]

/-- C7 witness: a gap-free, overlap-free two-interval depth striplog, and a
disjoint interval pair. -/
theorem noop_signals_witness :
    (findGaps .depth [Iv.mk 0 5 [], Iv.mk 5 9 []] false = .ok .nothing)
  ∧ (findOverlaps .depth [Iv.mk 0 5 [], Iv.mk 5 9 []] false = .ok .nothing)
  ∧ (Iv.mk 0 5 []).union (Iv.mk 7 9 []) true = .pair (Iv.mk 0 5 []) (Iv.mk 7 9 []) := by
  have h := noop_signals .depth [Iv.mk 0 5 [], Iv.mk 5 9 []] false (Iv.mk 0 5 []) (Iv.mk 7 9 [])
  exact ⟨h.2.1 (by rw [List.chain'_pair]; decide), h.2.2.1 (by rw [List.chain'_pair]; decide),
    h.2.2.2 (by decide) (by decide) (by decide) true⟩

/-! ### C2 -/

/-- Sortedness by top required by the claim: ascending for depth and none
order, descending for elevation. -/
def sortedByTop (so : SOrder) (l : List Iv) : Prop :=
  match so with
  | .elevation => List.Chain' (fun a b => b.top ≤ a.top) l
  | _ => List.Chain' (fun a b => a.top ≤ b.top) l

/-- The per-interval base/top relation declared by each order. -/
def relOK (so : SOrder) (iv : Iv) : Prop :=
  match so with
  | .depth => iv.top ≤ iv.base
  | .elevation => iv.base ≤ iv.top
  | .nil => iv.base = iv.top

theorem chain'_isort_ascend (l : List Iv) :
    List.Chain' (fun a b : Iv => a.top ≤ b.top)
      (isortBy (fun a b => decide (a.top ≤ b.top)) l) := by
  have h := chain'_isortBy (fun a b : Iv => decide (a.top ≤ b.top))
    (fun a b => by rcases le_total a.top b.top with h | h <;> simp [h]) l
  exact h.imp (fun _ _ hab => of_decide_eq_true hab)

theorem chain'_isort_descend (l : List Iv) :
    List.Chain' (fun a b : Iv => b.top ≤ a.top)
      (isortBy (fun a b => decide (b.top ≤ a.top)) l) := by
  have h := chain'_isortBy (fun a b : Iv => decide (b.top ≤ a.top))
    (fun a b => by rcases le_total a.top b.top with h | h <;> simp [h]) l
  exact h.imp (fun _ _ hab => of_decide_eq_true hab)

theorem striplogInitG_auto {α : Type} (tp bs : α → ℚ) (l : List α) :
    striplogInitG tp bs l .auto =
      if l.isEmpty then .error "Cannot create an empty Striplog."
      else if l.all (fun iv => decide (bs iv = tp iv)) then striplogCheck tp bs l .nil
      else if l.all (fun iv => decide (bs iv ≥ tp iv)) then striplogCheck tp bs l .depth
      else if l.all (fun iv => decide (bs iv ≤ tp iv)) then striplogCheck tp bs l .elevation
      else .error "Could not determine order from tops and bases." := rfl

theorem striplogCheck_ok (l : List Iv) (d so : SOrder) (l' : List Iv)
    (hok : striplogCheck Iv.top Iv.base l d = .ok (so, l')) :
    sortedByTop so l' ∧ ∀ iv ∈ l', relOK so iv := by
  cases d with
  | nil =>
    rw [striplogCheck] at hok
    split at hok
    · exact absurd hok (by simp)
    · rename_i hany
      simp only [Except.ok.injEq, Prod.mk.injEq] at hok
      obtain ⟨rfl, rfl⟩ := hok
      refine ⟨chain'_isort_ascend l, ?_⟩
      intro iv hiv
      rw [mem_isortBy] at hiv
      have hall : ∀ x ∈ l, ¬ (decide (x.base ≠ x.top) = true) := by
        simpa [List.any_eq_true] using hany
      have := hall iv hiv
      simpa [relOK] using this
  | depth =>
    rw [striplogCheck] at hok
    split at hok
    · exact absurd hok (by simp)
    · rename_i hany
      simp only [Except.ok.injEq, Prod.mk.injEq] at hok
      obtain ⟨rfl, rfl⟩ := hok
      refine ⟨chain'_isort_ascend l, ?_⟩
      intro iv hiv
      rw [mem_isortBy] at hiv
      have hall : ∀ x ∈ l, ¬ (decide (x.base < x.top) = true) := by
        simpa [List.any_eq_true] using hany
      have := hall iv hiv
      simp only [decide_eq_true_eq, not_lt] at this
      simpa [relOK] using this
  | elevation =>
    rw [striplogCheck] at hok
    split at hok
    · exact absurd hok (by simp)
    · rename_i hany
      simp only [Except.ok.injEq, Prod.mk.injEq] at hok
      obtain ⟨rfl, rfl⟩ := hok
      refine ⟨chain'_isort_descend l, ?_⟩
      intro iv hiv
      rw [mem_isortBy] at hiv
      have hall : ∀ x ∈ l, ¬ (decide (x.top < x.base) = true) := by
        simpa [List.any_eq_true] using hany
      have := hall iv hiv
      simp only [decide_eq_true_eq, not_lt] at this
      simpa [relOK] using this

/-- C2: construction either raises `StriplogError` or yields a list sorted by
top in the order-appropriate direction with every interval satisfying that
order's base/top relation; `order='auto'` detects none / depth / elevation in
that precedence and rejects mixed data; the empty list always raises. -/
theorem striplog_init_spec (l : List Iv) (o : OrderArg) :
    (l = [] → ∃ e, striplogInit l o = .error e)
  ∧ (∀ so l', striplogInit l o = .ok (so, l') →
      sortedByTop so l' ∧ ∀ iv ∈ l', relOK so iv)
  ∧ (l ≠ [] → o = .auto →
      ((∀ iv ∈ l, iv.base = iv.top) → ∃ l', striplogInit l o = .ok (.nil, l'))
    ∧ ((∀ iv ∈ l, iv.top ≤ iv.base) → ¬(∀ iv ∈ l, iv.base = iv.top) →
        ∃ l', striplogInit l o = .ok (.depth, l'))
    ∧ ((∀ iv ∈ l, iv.base ≤ iv.top) → ¬(∀ iv ∈ l, iv.base = iv.top) →
        ∃ l', striplogInit l o = .ok (.elevation, l'))
    ∧ (¬(∀ iv ∈ l, iv.top ≤ iv.base) → ¬(∀ iv ∈ l, iv.base ≤ iv.top) →
        ∃ e, striplogInit l o = .error e)) := by
  refine ⟨?_, ?_, ?_⟩
  · rintro rfl
    exact ⟨_, rfl⟩
  · intro so l' hok
    rw [striplogInit, striplogInitG.eq_def] at hok
    split at hok
    · exact absurd hok (by simp)
    · cases o with
      | auto =>
        split_ifs at hok
        all_goals first
          | exact striplogCheck_ok l .nil so l' hok
          | exact striplogCheck_ok l .depth so l' hok
          | exact striplogCheck_ok l .elevation so l' hok
      | depth => exact striplogCheck_ok l .depth so l' hok
      | elevation => exact striplogCheck_ok l .elevation so l' hok
      | nil => exact striplogCheck_ok l .nil so l' hok
  · intro hl hauto
    subst hauto
    have hne : ¬ (l.isEmpty = true) := by simpa using hl
    refine ⟨?_, ?_, ?_, ?_⟩
    · intro hall
      have hA : l.all (fun iv => decide (iv.base = iv.top)) = true := by
        rw [List.all_eq_true]
        intro iv hiv
        simpa using hall iv hiv
      refine ⟨isortBy (fun a b => decide (a.top ≤ b.top)) l, ?_⟩
      rw [striplogInit, striplogInitG_auto, if_neg hne, if_pos hA, striplogCheck,
        if_neg (by simpa [List.any_eq_true] using hall)]
    · intro hge hneq
      have hA : l.all (fun iv => decide (iv.base = iv.top)) = false := by
        rw [List.all_eq_false]
        rw [not_forall] at hneq
        obtain ⟨iv, hiv⟩ := hneq
        rw [Classical.not_imp] at hiv
        exact ⟨iv, hiv.1, by simpa using hiv.2⟩
      have hB : l.all (fun iv => decide (iv.base ≥ iv.top)) = true := by
        rw [List.all_eq_true]
        intro iv hiv
        simpa using hge iv hiv
      refine ⟨isortBy (fun a b => decide (a.top ≤ b.top)) l, ?_⟩
      rw [striplogInit, striplogInitG_auto, if_neg hne, if_neg (by simp [hA]), if_pos hB,
        striplogCheck, if_neg ?_]
      rw [List.any_eq_true]
      rintro ⟨iv, hiv, hbad⟩
      have := hge iv hiv
      simp only [decide_eq_true_eq] at hbad
      exact absurd this (not_le.mpr hbad)
    · intro hle hneq
      have hA : l.all (fun iv => decide (iv.base = iv.top)) = false := by
        rw [List.all_eq_false]
        rw [not_forall] at hneq
        obtain ⟨iv, hiv⟩ := hneq
        rw [Classical.not_imp] at hiv
        exact ⟨iv, hiv.1, by simpa using hiv.2⟩
      have hB : l.all (fun iv => decide (iv.base ≥ iv.top)) = false := by
        rw [List.all_eq_false]
        rw [not_forall] at hneq
        obtain ⟨iv, hiv⟩ := hneq
        rw [Classical.not_imp] at hiv
        refine ⟨iv, hiv.1, ?_⟩
        have h1 := hle iv hiv.1
        simp only [decide_eq_true_eq, ge_iff_le, not_le]
        exact lt_of_le_of_ne h1 hiv.2
      have hC : l.all (fun iv => decide (iv.base ≤ iv.top)) = true := by
        rw [List.all_eq_true]
        intro iv hiv
        simpa using hle iv hiv
      refine ⟨isortBy (fun a b => decide (b.top ≤ a.top)) l, ?_⟩
      rw [striplogInit, striplogInitG_auto, if_neg hne, if_neg (by simp [hA]),
        if_neg (by simp [hB]), if_pos hC, striplogCheck, if_neg ?_]
      rw [List.any_eq_true]
      rintro ⟨iv, hiv, hbad⟩
      have := hle iv hiv
      simp only [decide_eq_true_eq] at hbad
      exact absurd this (not_le.mpr hbad)
    · intro hnge hnle
      have hA : l.all (fun iv => decide (iv.base = iv.top)) = false := by
        rw [List.all_eq_false]
        rw [not_forall] at hnge
        obtain ⟨iv, hiv⟩ := hnge
        rw [Classical.not_imp] at hiv
        refine ⟨iv, hiv.1, ?_⟩
        simp only [decide_eq_true_eq]
        intro he
        exact hiv.2 (le_of_eq he.symm)
      have hB : l.all (fun iv => decide (iv.base ≥ iv.top)) = false := by
        rw [List.all_eq_false]
        rw [not_forall] at hnge
        obtain ⟨iv, hiv⟩ := hnge
        rw [Classical.not_imp] at hiv
        exact ⟨iv, hiv.1, by simpa using hiv.2⟩
      have hC : l.all (fun iv => decide (iv.base ≤ iv.top)) = false := by
        rw [List.all_eq_false]
        rw [not_forall] at hnle
        obtain ⟨iv, hiv⟩ := hnle
        rw [Classical.not_imp] at hiv
        exact ⟨iv, hiv.1, by simpa using hiv.2⟩
      refine ⟨"Could not determine order from tops and bases.", ?_⟩
      rw [striplogInit, striplogInitG_auto, if_neg hne, if_neg (by simp [hA]),
        if_neg (by simp [hB]), if_neg (by simp [hC])]

/-- C2 witness: a two-interval depth list given in reverse order is
auto-detected as depth, sorted ascending by top, and every interval satisfies
top ≤ base. -/
theorem striplog_init_spec_witness :
    sortedByTop .depth [Iv.mk 0 5 [], Iv.mk 10 20 []] ∧
      ∀ iv ∈ [Iv.mk 0 5 [], Iv.mk 10 20 []], relOK .depth iv :=
  (striplog_init_spec [Iv.mk 10 20 [], Iv.mk 0 5 []] .auto).2.1 .depth
    [Iv.mk 0 5 [], Iv.mk 10 20 []] (by rfl)

/-! ### C4 -/

theorem order_depth_iff (iv : Iv) : iv.order = .depth ↔ iv.top ≤ iv.base := by
  rw [Iv.order]
  split_ifs with h
  · simp [not_le.mpr h]
  · simp [not_lt.mp h]

theorem order_elev_iff (iv : Iv) : iv.order = .elevation ↔ iv.base < iv.top := by
  rw [Iv.order]
  split_ifs with h
  · simp [h]
  · simp [not_lt.mp h]

theorem order_ne_nil (iv : Iv) : iv.order ≠ .nil := by
  rw [Iv.order]
  split_ifs <;> simp

theorem relationship_depth (a b : Iv) (ha : a.order = .depth) :
    a.relationship b =
      if ((a.top < b.top ∧ b.top < a.base) ∧ (a.top < b.base ∧ b.base < a.base)) then
        some .contains
      else if (b.top < a.top ∧ a.base < b.base) then some .containedby
      else if ((a.top < b.top ∧ b.top < a.base) ∨ (a.top < b.base ∧ b.base < a.base)) then
        some .partly
      else if (a.top = b.base ∨ a.base = b.top) then some .touches
      else none := by
  rw [Iv.relationship, ha]
  simp only [Bool.and_eq_true, Bool.or_eq_true, decide_eq_true_eq]

theorem relationship_elev (a b : Iv) (ha : a.order = .elevation) :
    a.relationship b =
      if ((b.top < a.top ∧ a.base < b.top) ∧ (b.base < a.top ∧ a.base < b.base)) then
        some .contains
      else if (a.top < b.top ∧ b.base < a.base) then some .containedby
      else if ((b.top < a.top ∧ a.base < b.top) ∨ (b.base < a.top ∧ a.base < b.base)) then
        some .partly
      else if (a.top = b.base ∨ a.base = b.top) then some .touches
      else none := by
  rw [Iv.relationship, ha]
  simp only [Bool.and_eq_true, Bool.or_eq_true, decide_eq_true_eq]

theorem splitAt_ok (iv : Iv) (d : ℚ) (h : iv.spans d = true) :
    iv.splitAt d = .ok ({iv with base := d}, {iv with top := d}) := by
  rw [Iv.splitAt, if_pos h]

theorem spans_of_depth (iv : Iv) (h : iv.order = .depth) (d : ℚ)
    (h1 : d ≤ iv.base) (h2 : iv.top ≤ d) : iv.spans d = true := by
  rw [Iv.spans, h]
  simp [h1, h2]

theorem spans_of_elev (iv : Iv) (h : iv.order = .elevation) (d : ℚ)
    (h1 : iv.base ≤ d) (h2 : d ≤ iv.top) : iv.spans d = true := by
  rw [Iv.spans, h]
  simp only [Bool.and_eq_true, decide_eq_true_eq, ge_iff_le]
  exact ⟨h1, h2⟩

/-- C4: for same-order intervals that at least partially overlap, the three
`_explode` pieces partition the union span: their thicknesses sum to the
thickness of the single interval returned by `union`. -/
theorem explode_conserves (a b : Iv) (hord : a.order = b.order)
    (hov : a.anyOverlaps b = true) :
    ∃ u m lo, a.explode b = .ok (u, m, lo) ∧
      ∃ r, a.union b true = .one r ∧
        u.thickness + m.thickness + lo.thickness = r.thickness := by
  have hov0 := hov
  cases hoa : a.order with
  | nil => exact absurd hoa (order_ne_nil a)
  | depth =>
    have hob : b.order = .depth := by rw [← hord, hoa]
    have hat := (order_depth_iff a).mp hoa
    have hbt := (order_depth_iff b).mp hob
    have hne : ¬ (a.order ≠ b.order) := by rw [hoa, hob]; simp
    rw [Iv.anyOverlaps, relationship_depth a b hoa] at hov
    split_ifs at hov with h1 h2 h3 h4
    · -- contains
      obtain ⟨⟨h11, h12⟩, h13, h14⟩ := h1
      have hpltba : Iv.pyLt b a = true := by
        rw [Iv.pyLt, hob]; simp [h11]
      have hmax : pyMax a b = a := by
        rw [pyMax, Iv.pyGt, hpltba]; rfl
      have hmin : pyMin a b = b := by
        rw [pyMin, hpltba]; rfl
      have hpo : a.partlyOverlaps b = false := by
        rw [Iv.partlyOverlaps, relationship_depth a b hoa,
          if_pos ⟨⟨h11, h12⟩, h13, h14⟩]
        rfl
      have hsp1 : a.spans b.base = true := spans_of_depth a hoa b.base h14.le h13.le
      have hsp2 : ({a with base := b.base} : Iv).spans b.top = true := by
        apply spans_of_depth
        · rw [order_depth_iff]
          show a.top ≤ b.base
          linarith
        · show b.top ≤ b.base
          linarith
        · show a.top ≤ b.top
          linarith
      have hexp : a.explode b = .ok ({a with base := b.top}, b, {a with top := b.base}) := by
        rw [Iv.explode, if_neg hne]
        simp only [hmax, hmin, hpo, Bool.false_eq_true, if_false,
          splitAt_ok a b.base hsp1, splitAt_ok _ b.top hsp2]
      have hun : a.union b true = .one ⟨a.top, a.base, combineList a.comps b.comps⟩ := by
        rw [Iv.union, if_neg (by simp [hov0])]
        simp only [hoa, min_eq_left h11.le, max_eq_left h14.le, Iv.combine, if_pos]
      refine ⟨_, _, _, hexp, _, hun, ?_⟩
      simp only [Iv.thickness]
      rw [pyAbs_of_nonneg (show (0:ℚ) ≤ b.top - a.top by linarith),
        pyAbs_of_nonneg (show (0:ℚ) ≤ b.base - b.top by linarith),
        pyAbs_of_nonneg (show (0:ℚ) ≤ a.base - b.base by linarith),
        pyAbs_of_nonneg (show (0:ℚ) ≤ a.base - a.top by linarith)]
      try ring
    · -- containedby
      obtain ⟨h21, h22⟩ := h2
      have hpltba : Iv.pyLt b a = false := by
        rw [Iv.pyLt, hob]; simp; linarith
      have hmax : pyMax a b = b := by
        rw [pyMax, Iv.pyGt, hpltba]
        simp [h21.ne]
      have hmin : pyMin a b = a := by
        rw [pyMin, hpltba]; rfl
      have hpo : a.partlyOverlaps b = false := by
        rw [Iv.partlyOverlaps, relationship_depth a b hoa, if_neg h1, if_pos ⟨h21, h22⟩]
        rfl
      have hsp1 : b.spans a.base = true :=
        spans_of_depth b hob a.base h22.le (h21.le.trans hat)
      have hsp2 : ({b with base := a.base} : Iv).spans a.top = true := by
        apply spans_of_depth
        · rw [order_depth_iff]
          show b.top ≤ a.base
          linarith
        · show a.top ≤ a.base
          linarith
        · show b.top ≤ a.top
          linarith
      have hexp : a.explode b = .ok ({b with base := a.top}, a, {b with top := a.base}) := by
        rw [Iv.explode, if_neg hne]
        simp only [hmax, hmin, hpo, Bool.false_eq_true, if_false,
          splitAt_ok b a.base hsp1, splitAt_ok _ a.top hsp2]
      have hun : a.union b true = .one ⟨b.top, b.base, combineList a.comps b.comps⟩ := by
        rw [Iv.union, if_neg (by simp [hov0])]
        simp only [hoa, min_eq_right h21.le, max_eq_right h22.le, Iv.combine, if_pos]
      refine ⟨_, _, _, hexp, _, hun, ?_⟩
      simp only [Iv.thickness]
      rw [pyAbs_of_nonneg (show (0:ℚ) ≤ a.top - b.top by linarith),
        pyAbs_of_nonneg (show (0:ℚ) ≤ a.base - a.top by linarith),
        pyAbs_of_nonneg (show (0:ℚ) ≤ b.base - a.base by linarith),
        pyAbs_of_nonneg (show (0:ℚ) ≤ b.base - b.top by linarith)]
      try ring
    · -- partially
      have hpo : a.partlyOverlaps b = true := by
        rw [Iv.partlyOverlaps, relationship_depth a b hoa, if_neg h1, if_neg h2, if_pos h3]
        rfl
      rcases h3 with ⟨h31, h32⟩ | ⟨h31, h32⟩
      · -- top_inside: a.top < b.top < a.base, and b.base ≥ a.base
        have hble : a.base ≤ b.base := by
          by_contra hc
          exact h1 ⟨⟨h31, h32⟩, lt_of_lt_of_le h31 hbt, not_le.mp hc⟩
        have hpltba : Iv.pyLt b a = true := by
          rw [Iv.pyLt, hob]; simp [h31]
        have hmax : pyMax a b = a := by
          rw [pyMax, Iv.pyGt, hpltba]; rfl
        have hmin : pyMin a b = b := by
          rw [pyMin, hpltba]; rfl
        have hsp1 : a.spans b.top = true := spans_of_depth a hoa b.top h32.le h31.le
        have hsp2 : b.spans a.base = true := spans_of_depth b hob a.base hble h32.le
        have hexp : a.explode b =
            .ok ({a with base := b.top}, {b with base := a.base}, {b with top := a.base}) := by
          rw [Iv.explode, if_neg hne]
          simp only [hmax, hmin, hpo, if_true,
            splitAt_ok a b.top hsp1, splitAt_ok b a.base hsp2]
        have hun : a.union b true = .one ⟨a.top, b.base, combineList a.comps b.comps⟩ := by
          rw [Iv.union, if_neg (by simp [hov0])]
          simp only [hoa, min_eq_left h31.le, max_eq_right hble, Iv.combine, if_pos]
        refine ⟨_, _, _, hexp, _, hun, ?_⟩
        simp only [Iv.thickness]
        rw [pyAbs_of_nonneg (show (0:ℚ) ≤ b.top - a.top by linarith),
          pyAbs_of_nonneg (show (0:ℚ) ≤ a.base - b.top by linarith),
          pyAbs_of_nonneg (show (0:ℚ) ≤ b.base - a.base by linarith),
          pyAbs_of_nonneg (show (0:ℚ) ≤ b.base - a.top by linarith)]
        try ring
      · -- base_inside: a.top < b.base < a.base
        rcases lt_trichotomy a.top b.top with hT | hT | hT
        · exact absurd ⟨⟨hT, lt_of_le_of_lt hbt h32⟩, h31, h32⟩ h1
        · -- equal tops: uppermost and lowermost both resolve to a
          have hpltba : Iv.pyLt b a = false := by
            rw [Iv.pyLt, hob]; simp [hT]
          have hmax : pyMax a b = a := by
            rw [pyMax, Iv.pyGt, hpltba]
            simp [hT.symm]
          have hmin : pyMin a b = a := by
            rw [pyMin, hpltba]; rfl
          have hsp1 : a.spans a.top = true := spans_of_depth a hoa a.top hat le_rfl
          have hsp2 : a.spans a.base = true := spans_of_depth a hoa a.base le_rfl hat
          have hexp : a.explode b =
              .ok ({a with base := a.top}, {a with base := a.base}, {a with top := a.base}) := by
            rw [Iv.explode, if_neg hne]
            simp only [hmax, hmin, hpo, if_true,
              splitAt_ok a a.top hsp1, splitAt_ok a a.base hsp2]
          have hun : a.union b true = .one ⟨a.top, a.base, combineList a.comps b.comps⟩ := by
            rw [Iv.union, if_neg (by simp [hov0])]
            simp only [hoa, min_eq_left hT.le, max_eq_left h32.le, Iv.combine, if_pos]
          refine ⟨_, _, _, hexp, _, hun, ?_⟩
          simp only [Iv.thickness]
          rw [pyAbs_of_nonneg (show (0:ℚ) ≤ a.top - a.top by linarith),
            pyAbs_of_nonneg (show (0:ℚ) ≤ a.base - a.top by linarith),
            pyAbs_of_nonneg (show (0:ℚ) ≤ a.base - a.base by linarith)]
          try ring
        · -- b.top < a.top: uppermost is b, lowermost is a
          have hpltba : Iv.pyLt b a = false := by
            rw [Iv.pyLt, hob]; simp; linarith
          have hmax : pyMax a b = b := by
            rw [pyMax, Iv.pyGt, hpltba]
            simp [hT.ne]
          have hmin : pyMin a b = a := by
            rw [pyMin, hpltba]; rfl
          have hsp1 : b.spans a.top = true := spans_of_depth b hob a.top h31.le hT.le
          have hsp2 : a.spans b.base = true := spans_of_depth a hoa b.base h32.le h31.le
          have hexp : a.explode b =
              .ok ({b with base := a.top}, {a with base := b.base}, {a with top := b.base}) := by
            rw [Iv.explode, if_neg hne]
            simp only [hmax, hmin, hpo, if_true,
              splitAt_ok b a.top hsp1, splitAt_ok a b.base hsp2]
          have hun : a.union b true = .one ⟨b.top, a.base, combineList a.comps b.comps⟩ := by
            rw [Iv.union, if_neg (by simp [hov0])]
            simp only [hoa, min_eq_right hT.le, max_eq_left h32.le, Iv.combine, if_pos]
          refine ⟨_, _, _, hexp, _, hun, ?_⟩
          simp only [Iv.thickness]
          rw [pyAbs_of_nonneg (show (0:ℚ) ≤ a.top - b.top by linarith),
            pyAbs_of_nonneg (show (0:ℚ) ≤ b.base - a.top by linarith),
            pyAbs_of_nonneg (show (0:ℚ) ≤ a.base - b.base by linarith),
            pyAbs_of_nonneg (show (0:ℚ) ≤ a.base - b.top by linarith)]
          try ring
    · exact absurd hov (by decide)
  | elevation =>
    have hob : b.order = .elevation := by rw [← hord, hoa]
    have hat := (order_elev_iff a).mp hoa
    have hbt := (order_elev_iff b).mp hob
    have hne : ¬ (a.order ≠ b.order) := by rw [hoa, hob]; simp
    rw [Iv.anyOverlaps, relationship_elev a b hoa] at hov
    split_ifs at hov with h1 h2 h3 h4
    · -- contains
      obtain ⟨⟨h11, h12⟩, h13, h14⟩ := h1
      have hpltba : Iv.pyLt b a = true := by
        rw [Iv.pyLt, hob]; simp [h11]
      have hmax : pyMax a b = a := by
        rw [pyMax, Iv.pyGt, hpltba]; rfl
      have hmin : pyMin a b = b := by
        rw [pyMin, hpltba]; rfl
      have hpo : a.partlyOverlaps b = false := by
        rw [Iv.partlyOverlaps, relationship_elev a b hoa,
          if_pos ⟨⟨h11, h12⟩, h13, h14⟩]
        rfl
      have hsp1 : a.spans b.base = true := spans_of_elev a hoa b.base h14.le h13.le
      have hsp2 : ({a with base := b.base} : Iv).spans b.top = true := by
        apply spans_of_elev
        · rw [order_elev_iff]
          show b.base < a.top
          linarith
        · show b.base ≤ b.top
          linarith
        · show b.top ≤ a.top
          linarith
      have hexp : a.explode b = .ok ({a with base := b.top}, b, {a with top := b.base}) := by
        rw [Iv.explode, if_neg hne]
        simp only [hmax, hmin, hpo, Bool.false_eq_true, if_false,
          splitAt_ok a b.base hsp1, splitAt_ok _ b.top hsp2]
      have hun : a.union b true = .one ⟨a.top, a.base, combineList a.comps b.comps⟩ := by
        rw [Iv.union, if_neg (by simp [hov0])]
        simp only [hoa, max_eq_left h11.le, min_eq_left h14.le, Iv.combine, if_pos]
      refine ⟨_, _, _, hexp, _, hun, ?_⟩
      simp only [Iv.thickness]
      rw [pyAbs_of_nonpos (show b.top - a.top ≤ (0:ℚ) by linarith),
        pyAbs_of_nonpos (show b.base - b.top ≤ (0:ℚ) by linarith),
        pyAbs_of_nonpos (show a.base - b.base ≤ (0:ℚ) by linarith),
        pyAbs_of_nonpos (show a.base - a.top ≤ (0:ℚ) by linarith)]
      try ring
    · -- containedby
      obtain ⟨h21, h22⟩ := h2
      have hpltba : Iv.pyLt b a = false := by
        rw [Iv.pyLt, hob]; simp; linarith
      have hmax : pyMax a b = b := by
        rw [pyMax, Iv.pyGt, hpltba]
        simp [h21.ne']
      have hmin : pyMin a b = a := by
        rw [pyMin, hpltba]; rfl
      have hpo : a.partlyOverlaps b = false := by
        rw [Iv.partlyOverlaps, relationship_elev a b hoa, if_neg h1, if_pos ⟨h21, h22⟩]
        rfl
      have hsp1 : b.spans a.base = true := by
        apply spans_of_elev b hob
        · linarith
        · linarith
      have hsp2 : ({b with base := a.base} : Iv).spans a.top = true := by
        apply spans_of_elev
        · rw [order_elev_iff]
          show a.base < b.top
          linarith
        · show a.base ≤ a.top
          linarith
        · show a.top ≤ b.top
          linarith
      have hexp : a.explode b = .ok ({b with base := a.top}, a, {b with top := a.base}) := by
        rw [Iv.explode, if_neg hne]
        simp only [hmax, hmin, hpo, Bool.false_eq_true, if_false,
          splitAt_ok b a.base hsp1, splitAt_ok _ a.top hsp2]
      have hun : a.union b true = .one ⟨b.top, b.base, combineList a.comps b.comps⟩ := by
        rw [Iv.union, if_neg (by simp [hov0])]
        simp only [hoa, max_eq_right h21.le, min_eq_right h22.le, Iv.combine, if_pos]
      refine ⟨_, _, _, hexp, _, hun, ?_⟩
      simp only [Iv.thickness]
      rw [pyAbs_of_nonpos (show a.top - b.top ≤ (0:ℚ) by linarith),
        pyAbs_of_nonpos (show a.base - a.top ≤ (0:ℚ) by linarith),
        pyAbs_of_nonpos (show b.base - a.base ≤ (0:ℚ) by linarith),
        pyAbs_of_nonpos (show b.base - b.top ≤ (0:ℚ) by linarith)]
      try ring
    · -- partially
      have hpo : a.partlyOverlaps b = true := by
        rw [Iv.partlyOverlaps, relationship_elev a b hoa, if_neg h1, if_neg h2, if_pos h3]
        rfl
      rcases h3 with ⟨h31, h32⟩ | ⟨h31, h32⟩
      · -- top_inside (elevation): b.top < a.top, a.base < b.top; b.base ≤ a.base
        have hble : b.base ≤ a.base := by
          by_contra hc
          exact h1 ⟨⟨h31, h32⟩, hbt.trans h31, not_le.mp hc⟩
        have hpltba : Iv.pyLt b a = true := by
          rw [Iv.pyLt, hob]; simp [h31]
        have hmax : pyMax a b = a := by
          rw [pyMax, Iv.pyGt, hpltba]; rfl
        have hmin : pyMin a b = b := by
          rw [pyMin, hpltba]; rfl
        have hsp1 : a.spans b.top = true := spans_of_elev a hoa b.top h32.le h31.le
        have hsp2 : b.spans a.base = true := spans_of_elev b hob a.base hble h32.le
        have hexp : a.explode b =
            .ok ({a with base := b.top}, {b with base := a.base}, {b with top := a.base}) := by
          rw [Iv.explode, if_neg hne]
          simp only [hmax, hmin, hpo, if_true,
            splitAt_ok a b.top hsp1, splitAt_ok b a.base hsp2]
        have hun : a.union b true = .one ⟨a.top, b.base, combineList a.comps b.comps⟩ := by
          rw [Iv.union, if_neg (by simp [hov0])]
          simp only [hoa, max_eq_left h31.le, min_eq_right hble, Iv.combine, if_pos]
        refine ⟨_, _, _, hexp, _, hun, ?_⟩
        simp only [Iv.thickness]
        rw [pyAbs_of_nonpos (show b.top - a.top ≤ (0:ℚ) by linarith),
          pyAbs_of_nonpos (show a.base - b.top ≤ (0:ℚ) by linarith),
          pyAbs_of_nonpos (show b.base - a.base ≤ (0:ℚ) by linarith),
          pyAbs_of_nonpos (show b.base - a.top ≤ (0:ℚ) by linarith)]
        try ring
      · -- base_inside (elevation): b.base < a.top, a.base < b.base
        rcases lt_trichotomy b.top a.top with hT | hT | hT
        · exact absurd ⟨⟨hT, lt_of_lt_of_le h32 hbt.le⟩, h31, h32⟩ h1
        · -- equal tops
          have hpltba : Iv.pyLt b a = false := by
            rw [Iv.pyLt, hob]; simp [hT]
          have hmax : pyMax a b = a := by
            rw [pyMax, Iv.pyGt, hpltba]
            simp [hT]
          have hmin : pyMin a b = a := by
            rw [pyMin, hpltba]; rfl
          have hsp1 : a.spans a.top = true := spans_of_elev a hoa a.top hat.le le_rfl
          have hsp2 : a.spans a.base = true := spans_of_elev a hoa a.base le_rfl hat.le
          have hexp : a.explode b =
              .ok ({a with base := a.top}, {a with base := a.base}, {a with top := a.base}) := by
            rw [Iv.explode, if_neg hne]
            simp only [hmax, hmin, hpo, if_true,
              splitAt_ok a a.top hsp1, splitAt_ok a a.base hsp2]
          have hun : a.union b true = .one ⟨a.top, a.base, combineList a.comps b.comps⟩ := by
            rw [Iv.union, if_neg (by simp [hov0])]
            simp only [hoa, max_eq_left hT.le, min_eq_left h32.le, Iv.combine, if_pos]
          refine ⟨_, _, _, hexp, _, hun, ?_⟩
          simp only [Iv.thickness]
          rw [pyAbs_of_nonpos (show a.top - a.top ≤ (0:ℚ) by linarith),
            pyAbs_of_nonpos (show a.base - a.top ≤ (0:ℚ) by linarith),
            pyAbs_of_nonpos (show a.base - a.base ≤ (0:ℚ) by linarith)]
          try ring
        · -- a.top < b.top: uppermost is b, lowermost is a
          have hpltba : Iv.pyLt b a = false := by
            rw [Iv.pyLt, hob]; simp; linarith
          have hmax : pyMax a b = b := by
            rw [pyMax, Iv.pyGt, hpltba]
            simp [hT.ne']
          have hmin : pyMin a b = a := by
            rw [pyMin, hpltba]; rfl
          have hsp1 : b.spans a.top = true := spans_of_elev b hob a.top h31.le hT.le
          have hsp2 : a.spans b.base = true := spans_of_elev a hoa b.base h32.le h31.le
          have hexp : a.explode b =
              .ok ({b with base := a.top}, {a with base := b.base}, {a with top := b.base}) := by
            rw [Iv.explode, if_neg hne]
            simp only [hmax, hmin, hpo, if_true,
              splitAt_ok b a.top hsp1, splitAt_ok a b.base hsp2]
          have hun : a.union b true = .one ⟨b.top, a.base, combineList a.comps b.comps⟩ := by
            rw [Iv.union, if_neg (by simp [hov0])]
            simp only [hoa, max_eq_right hT.le, min_eq_left h32.le, Iv.combine, if_pos]
          refine ⟨_, _, _, hexp, _, hun, ?_⟩
          simp only [Iv.thickness]
          rw [pyAbs_of_nonpos (show a.top - b.top ≤ (0:ℚ) by linarith),
            pyAbs_of_nonpos (show b.base - a.top ≤ (0:ℚ) by linarith),
            pyAbs_of_nonpos (show a.base - b.base ≤ (0:ℚ) by linarith),
            pyAbs_of_nonpos (show a.base - b.top ≤ (0:ℚ) by linarith)]
          try ring
    · exact absurd hov (by decide)

/-- C4 witness: depth intervals (61, 62.5) and (62, 63) partially overlap; the
explode pieces and the union evaluate concretely and the thicknesses balance. -/
theorem explode_conserves_witness :
    ∃ u m lo, (Iv.mk 61 63 [1]).explode (Iv.mk 62 64 [2]) = .ok (u, m, lo) ∧
      ∃ r, (Iv.mk 61 63 [1]).union (Iv.mk 62 64 [2]) true = .one r ∧
        u.thickness + m.thickness + lo.thickness = r.thickness :=
  explode_conserves (Iv.mk 61 63 [1]) (Iv.mk 62 64 [2]) (by decide) (by decide)

/-! ### C5 -/

/-- C5 counterexample: two intervals identical in extent have relationship
`None` (every strict comparison fails), so `difference` returns `self` through
the no-overlap branch, not `None`; and a pair that partially overlaps sharing
the same top (`[0,100)` vs `[0,60)`) is where `difference` actually returns
`None`.  Both contradict the claim's "returns None exactly when the two
intervals are identical in extent". -/
theorem difference_identical_cex :
    (Iv.mk 0 100 []).top = (Iv.mk 0 100 [0]).top
      ∧ (Iv.mk 0 100 []).base = (Iv.mk 0 100 [0]).base
      ∧ (Iv.mk 0 100 []).difference (Iv.mk 0 100 [0]) = .ok (.one (Iv.mk 0 100 []))
      ∧ (Iv.mk 0 100 []).difference (Iv.mk 0 60 [0]) = .ok .nil := by
  refine ⟨rfl, rfl, ?_, ?_⟩ <;> rfl

/-- C5 (amended): `difference` returns `self` when the intervals touch or do
not overlap (which includes identical extents, classified as no overlap);
the `(upper, lower)` tail pair, of combined thickness
`self.thickness - other.thickness`, when `self` completely contains `other`;
the single surviving tail of `self` when they partially overlap with distinct
tops; and `None` when they partially overlap but share the same top. -/
theorem difference_spec (a b : Iv) (hord : a.order = b.order) :
    (a.touches b = true ∨ a.anyOverlaps b = false → a.difference b = .ok (.one a))
  ∧ (a.completelyContains b = true →
      a.difference b = .ok (.pair {a with base := b.top} {a with top := b.base}) ∧
        ({a with base := b.top} : Iv).thickness + ({a with top := b.base} : Iv).thickness
          = a.thickness - b.thickness)
  ∧ (a.partlyOverlaps b = true → a.top ≠ b.top →
      (a.difference b = .ok (.one {a with base := b.top}) ∨
       a.difference b = .ok (.one {a with top := b.base})))
  ∧ (a.partlyOverlaps b = true → a.top = b.top → a.difference b = .ok .nil) := by
  refine ⟨?_, ?_, ?_, ?_⟩
  · rintro (ht | hnov)
    · rw [Iv.difference, if_pos (by simp [ht])]
    · rw [Iv.difference, if_pos (by simp [hnov])]
  · intro hcc
    have hrel : a.relationship b = some .contains := of_decide_eq_true hcc
    have htch : a.touches b = false := by rw [Iv.touches, hrel]; rfl
    have hao : a.anyOverlaps b = true := by rw [Iv.anyOverlaps, hrel]; rfl
    have hne : ¬ (a.order ≠ b.order) := by simp [hord]
    cases hoa : a.order with
    | nil => exact absurd hoa (order_ne_nil a)
    | depth =>
      have hob : b.order = .depth := by rw [← hord, hoa]
      have hat := (order_depth_iff a).mp hoa
      have hbt := (order_depth_iff b).mp hob
      rw [relationship_depth a b hoa] at hrel
      split_ifs at hrel with h1 h2 h3 h4
      any_goals simp at hrel
      obtain ⟨⟨h11, h12⟩, h13, h14⟩ := h1
      have hpltba : Iv.pyLt b a = true := by
        rw [Iv.pyLt, hob]; simp [h11]
      have hmax : pyMax a b = a := by
        rw [pyMax, Iv.pyGt, hpltba]; rfl
      have hmin : pyMin a b = b := by
        rw [pyMin, hpltba]; rfl
      have hpo : a.partlyOverlaps b = false := by
        rw [Iv.partlyOverlaps, relationship_depth a b hoa,
          if_pos ⟨⟨h11, h12⟩, h13, h14⟩]
        rfl
      have hsp1 : a.spans b.base = true := spans_of_depth a hoa b.base h14.le h13.le
      have hsp2 : ({a with base := b.base} : Iv).spans b.top = true := by
        apply spans_of_depth
        · rw [order_depth_iff]
          show a.top ≤ b.base
          linarith
        · show b.top ≤ b.base
          linarith
        · show a.top ≤ b.top
          linarith
      have hexp : a.explode b = .ok ({a with base := b.top}, b, {a with top := b.base}) := by
        rw [Iv.explode, if_neg hne]
        simp only [hmax, hmin, hpo, Bool.false_eq_true, if_false,
          splitAt_ok a b.base hsp1, splitAt_ok _ b.top hsp2]
      constructor
      · rw [Iv.difference, if_neg (by simp [htch, hao]), if_pos hcc, hexp]
      · simp only [Iv.thickness]
        rw [pyAbs_of_nonneg (show (0:ℚ) ≤ b.top - a.top by linarith),
          pyAbs_of_nonneg (show (0:ℚ) ≤ a.base - b.base by linarith),
          pyAbs_of_nonneg (show (0:ℚ) ≤ a.base - a.top by linarith),
          pyAbs_of_nonneg (show (0:ℚ) ≤ b.base - b.top by linarith)]
        ring
    | elevation =>
      have hob : b.order = .elevation := by rw [← hord, hoa]
      have hat := (order_elev_iff a).mp hoa
      have hbt := (order_elev_iff b).mp hob
      rw [relationship_elev a b hoa] at hrel
      split_ifs at hrel with h1 h2 h3 h4
      any_goals simp at hrel
      obtain ⟨⟨h11, h12⟩, h13, h14⟩ := h1
      have hpltba : Iv.pyLt b a = true := by
        rw [Iv.pyLt, hob]; simp [h11]
      have hmax : pyMax a b = a := by
        rw [pyMax, Iv.pyGt, hpltba]; rfl
      have hmin : pyMin a b = b := by
        rw [pyMin, hpltba]; rfl
      have hpo : a.partlyOverlaps b = false := by
        rw [Iv.partlyOverlaps, relationship_elev a b hoa,
          if_pos ⟨⟨h11, h12⟩, h13, h14⟩]
        rfl
      have hsp1 : a.spans b.base = true := spans_of_elev a hoa b.base h14.le h13.le
      have hsp2 : ({a with base := b.base} : Iv).spans b.top = true := by
        apply spans_of_elev
        · rw [order_elev_iff]
          show b.base < a.top
          linarith
        · show b.base ≤ b.top
          linarith
        · show b.top ≤ a.top
          linarith
      have hexp : a.explode b = .ok ({a with base := b.top}, b, {a with top := b.base}) := by
        rw [Iv.explode, if_neg hne]
        simp only [hmax, hmin, hpo, Bool.false_eq_true, if_false,
          splitAt_ok a b.base hsp1, splitAt_ok _ b.top hsp2]
      constructor
      · rw [Iv.difference, if_neg (by simp [htch, hao]), if_pos hcc, hexp]
      · simp only [Iv.thickness]
        rw [pyAbs_of_nonpos (show b.top - a.top ≤ (0:ℚ) by linarith),
          pyAbs_of_nonpos (show a.base - b.base ≤ (0:ℚ) by linarith),
          pyAbs_of_nonpos (show a.base - a.top ≤ (0:ℚ) by linarith),
          pyAbs_of_nonpos (show b.base - b.top ≤ (0:ℚ) by linarith)]
        ring
  · intro hpo hneq
    have hrel : a.relationship b = some .partly := of_decide_eq_true hpo
    have htch : a.touches b = false := by rw [Iv.touches, hrel]; rfl
    have hao : a.anyOverlaps b = true := by rw [Iv.anyOverlaps, hrel]; rfl
    have hcc : a.completelyContains b = false := by
      rw [Iv.completelyContains, hrel]; rfl
    cases hoa : a.order with
    | nil => exact absurd hoa (order_ne_nil a)
    | depth =>
      have hob : b.order = .depth := by rw [← hord, hoa]
      have hat := (order_depth_iff a).mp hoa
      have hbt := (order_depth_iff b).mp hob
      rw [relationship_depth a b hoa] at hrel
      split_ifs at hrel with h1 h2 h3 h4
      any_goals simp at hrel
      rcases lt_trichotomy a.top b.top with hT | hT | hT
      · -- a is uppermost: a > b, keep the upper tail of a
        have hsp : a.spans b.top = true := by
          rcases h3 with ⟨h31, h32⟩ | ⟨h31, h32⟩
          · exact spans_of_depth a hoa b.top h32.le h31.le
          · exact absurd ⟨⟨hT, lt_of_le_of_lt hbt h32⟩, h31, h32⟩ h1
        have hgt : a.pyGt b = true := by
          rw [Iv.pyGt, Iv.pyLt, hoa]
          simp [hneq, not_lt.mpr hT.le]
        left
        rw [Iv.difference, if_neg (by simp [htch, hao]), if_neg (by simp [hcc]),
          if_pos hgt, splitAt_ok a b.top hsp]
      · exact absurd hT hneq
      · -- b is uppermost: a < b, keep the lower tail of a
        have hsp : a.spans b.base = true := by
          rcases h3 with ⟨h31, h32⟩ | ⟨h31, h32⟩
          · exact absurd hT (not_lt.mpr h31.le)
          · exact spans_of_depth a hoa b.base h32.le h31.le
        have hgt : a.pyGt b = false := by
          rw [Iv.pyGt, Iv.pyLt, hoa]
          simp [hT]
        have hlt : a.pyLt b = true := by
          rw [Iv.pyLt, hoa]
          simp [hT]
        right
        rw [Iv.difference, if_neg (by simp [htch, hao]), if_neg (by simp [hcc]),
          if_neg (by simp [hgt]), if_pos hlt, splitAt_ok a b.base hsp]
    | elevation =>
      have hob : b.order = .elevation := by rw [← hord, hoa]
      have hat := (order_elev_iff a).mp hoa
      have hbt := (order_elev_iff b).mp hob
      rw [relationship_elev a b hoa] at hrel
      split_ifs at hrel with h1 h2 h3 h4
      any_goals simp at hrel
      rcases lt_trichotomy a.top b.top with hT | hT | hT
      · -- b has the greater top: a < b, keep the lower tail of a
        have hsp : a.spans b.base = true := by
          rcases h3 with ⟨h31, h32⟩ | ⟨h31, h32⟩
          · exact absurd hT (not_lt.mpr h31.le)
          · exact spans_of_elev a hoa b.base h32.le h31.le
        have hgt : a.pyGt b = false := by
          rw [Iv.pyGt, Iv.pyLt, hoa]
          simp [hT]
        have hlt : a.pyLt b = true := by
          rw [Iv.pyLt, hoa]
          simp [hT]
        right
        rw [Iv.difference, if_neg (by simp [htch, hao]), if_neg (by simp [hcc]),
          if_neg (by simp [hgt]), if_pos hlt, splitAt_ok a b.base hsp]
      · exact absurd hT hneq
      · -- a has the greater top: a > b, keep the upper tail of a
        have hsp : a.spans b.top = true := by
          rcases h3 with ⟨h31, h32⟩ | ⟨h31, h32⟩
          · exact spans_of_elev a hoa b.top h32.le h31.le
          · exact absurd ⟨⟨hT, lt_of_lt_of_le h32 hbt.le⟩, h31, h32⟩ h1
        have hgt : a.pyGt b = true := by
          rw [Iv.pyGt, Iv.pyLt, hoa]
          simp [hneq, not_lt.mpr hT.le]
        left
        rw [Iv.difference, if_neg (by simp [htch, hao]), if_neg (by simp [hcc]),
          if_pos hgt, splitAt_ok a b.top hsp]
  · intro hpo heq
    have hrel : a.relationship b = some .partly := of_decide_eq_true hpo
    have htch : a.touches b = false := by rw [Iv.touches, hrel]; rfl
    have hao : a.anyOverlaps b = true := by rw [Iv.anyOverlaps, hrel]; rfl
    have hcc : a.completelyContains b = false := by
      rw [Iv.completelyContains, hrel]; rfl
    have hgt : a.pyGt b = false := by
      rw [Iv.pyGt]
      simp [heq]
    have hlt : a.pyLt b = false := by
      rw [Iv.pyLt]
      cases a.order <;> simp [heq]
    rw [Iv.difference, if_neg (by simp [htch, hao]), if_neg (by simp [hcc]),
      if_neg (by simp [hgt]), if_neg (by simp [hlt])]

/-- C5 witness: `[0,100)` completely contains `[40,60)`; the pair of tails and
the thickness identity are produced by the amended theorem at this input. -/
theorem difference_spec_witness :
    (Iv.mk 0 100 []).difference (Iv.mk 40 60 [])
        = .ok (.pair (Iv.mk 0 40 []) (Iv.mk 60 100 [])) ∧
      (Iv.mk 0 40 []).thickness + (Iv.mk 60 100 []).thickness
        = (Iv.mk 0 100 []).thickness - (Iv.mk 40 60 []).thickness :=
  (difference_spec (Iv.mk 0 100 []) (Iv.mk 40 60 []) (by decide)).2.1 (by decide)

/-! ### C3 -/

/-- C3: `merge_overlaps` begins with
`overlaps = np.array(self.find_overlaps(index=True)); if not overlaps.any(): return`.
When the only overlap is between intervals 0 and 1 the hit list is `[0]`, and
`np.array([0]).any()` is `False`, so the method returns without merging
anything: on the striplog `[(50,60), (55,75)]` the overlap at index 0 is
found, `merge_overlaps` leaves the list unchanged, and `find_overlaps`
afterwards still returns a striplog of overlaps rather than `None`. -/
theorem merge_overlaps_misses_first_overlap :
    findOverlaps .depth [Iv.mk 50 60 [1], Iv.mk 55 75 [2]] true = .ok (.indices [0])
  ∧ mergeOverlaps .depth [Iv.mk 50 60 [1], Iv.mk 55 75 [2]]
      = .ok [Iv.mk 50 60 [1], Iv.mk 55 75 [2]]
  ∧ findOverlaps .depth [Iv.mk 50 60 [1], Iv.mk 55 75 [2]] false
      = .ok (.strip .elevation [Iv.mk 60 55 []]) :=
  ⟨rfl, rfl, rfl⟩

/-! ### C8 -/

/-- C8 counterexample: the claim says `prune` mutates the receiver in place.
On the striplog `[(0,1), (1,10)]`, `prune(limit=2)` computes the thinned list
`[(1,10)]` and returns it, while the receiver still holds the original two
intervals, so the receiver does not reflect the result. -/
theorem prune_in_place_cex :
    (pruneCall ⟨.depth, [Iv.mk 0 1 [], Iv.mk 1 10 []]⟩ (some 2) none none false).1
        = ⟨.depth, [Iv.mk 0 1 [], Iv.mk 1 10 []]⟩
  ∧ (pruneCall ⟨.depth, [Iv.mk 0 1 [], Iv.mk 1 10 []]⟩ (some 2) none none false).2
        = .ok [Iv.mk 1 10 []]
  ∧ ([Iv.mk 1 10 []] : List Iv) ≠ [Iv.mk 0 1 [], Iv.mk 1 10 []] := by
  refine ⟨rfl, ?_, by simp⟩
  show prune [Iv.mk 0 1 [], Iv.mk 1 10 []] (some 2) none none false = .ok [Iv.mk 1 10 []]
  norm_num [prune, truthy, truthyNat, delItems, pyDelAt, Iv.thickness, pyAbs, List.enum,
    List.enumFrom, List.filterMap_cons, List.eraseIdx]

/-- C8 (amended): `prune` and `anneal` leave the receiver unchanged and return
their result (they work on a copy), as do the algebraic operations `union`,
`intersect` and `merge`; `merge_overlaps` and `crop` (with its default
`copy=False`) are the ones that write the receiver, installing exactly the
computed list and returning `None`. -/
theorem state_effects_spec (s other : SState) (limit : Option ℚ) (n : Option ℕ)
    (pc : Option ℚ) (ke : Bool) (mode : String) (e1 e2 : Option ℚ)
    (A : ℕ → ℚ) (rev : Bool) :
    (pruneCall s limit n pc ke).1 = s
  ∧ (annealCall s mode).1 = s
  ∧ (unionCall s other).1 = s
  ∧ (intersectCall s other).1 = s
  ∧ (mergeCall s A rev).1 = s
  ∧ (∀ l', mergeOverlaps s.order s.ivs = .ok l' →
      mergeOverlapsCall s = .ok ⟨s.order, l'⟩)
  ∧ (∀ l', cropList s.order s.ivs e1 e2 = .ok l' →
      cropCall s e1 e2 = .ok ⟨s.order, l'⟩) := by
  refine ⟨rfl, rfl, rfl, rfl, rfl, ?_, ?_⟩
  · intro l' h
    rw [mergeOverlapsCall, h]
    rfl
  · intro l' h
    rw [cropCall, h]
    rfl

/-- C8 witness: on the two-interval striplog of the C3 scenario the receiver
is untouched by `prune`, and `merge_overlaps` installs exactly its computed
(here: unchanged) list. -/
theorem state_effects_spec_witness :
    (pruneCall ⟨.depth, [Iv.mk 50 60 [1], Iv.mk 55 75 [2]]⟩ (some 2) none none false).1
        = ⟨.depth, [Iv.mk 50 60 [1], Iv.mk 55 75 [2]]⟩
  ∧ mergeOverlapsCall ⟨.depth, [Iv.mk 50 60 [1], Iv.mk 55 75 [2]]⟩
        = .ok ⟨.depth, [Iv.mk 50 60 [1], Iv.mk 55 75 [2]]⟩ := by
  have h := state_effects_spec ⟨.depth, [Iv.mk 50 60 [1], Iv.mk 55 75 [2]]⟩
    ⟨.depth, [Iv.mk 50 60 [1], Iv.mk 55 75 [2]]⟩ (some 2) none none false "middle"
    none none (fun _ => 0) false
  exact ⟨h.1, h.2.2.2.2.2.1 [Iv.mk 50 60 [1], Iv.mk 55 75 [2]] (by rfl)⟩

/-! ### C1: infrastructure -/

theorem perm_insSorted {α : Type} (le : α → α → Bool) (x : α) (l : List α) :
    List.Perm (insSorted le x l) (x :: l) := by
  induction l with
  | nil => exact List.Perm.refl _
  | cons y t ih =>
    simp only [insSorted]
    split
    · exact List.Perm.refl _
    · exact (ih.cons y).trans (List.Perm.swap x y t)

theorem perm_isortBy {α : Type} (le : α → α → Bool) (l : List α) :
    List.Perm (isortBy le l) l := by
  induction l with
  | nil => exact List.Perm.refl _
  | cons y t ih => exact (perm_insSorted le y (isortBy le t)).trans (ih.cons y)

theorem nodup_isortBy {α : Type} (le : α → α → Bool) (l : List α) (h : l.Nodup) :
    (isortBy le l).Nodup := (perm_isortBy le l).nodup_iff.mpr h

/-- In a sorted list every element lies below the head's successors:
`y` is below every member of its tail. -/
theorem chain'_head_le {α : Type} (le : α → α → Bool)
    (htrans : ∀ a b c, le a b = true → le b c = true → le a c = true)
    (y : α) (t : List α)
    (h : List.Chain' (fun a b => le a b = true) (y :: t)) :
    ∀ z ∈ t, le y z = true := by
  induction t generalizing y with
  | nil =>
    intro z hz
    cases hz
  | cons w t2 ih =>
    intro z hz
    rcases List.mem_cons.mp hz with rfl | hmem
    · exact (List.chain'_cons.mp h).1
    · exact htrans y w z (List.chain'_cons.mp h).1 (ih w (List.chain'_cons.mp h).2 z hmem)

/-- In a sorted list every element is below the last one. -/
theorem chain'_le_getLast {α : Type} (le : α → α → Bool)
    (htot : ∀ a b, le a b = true ∨ le b a = true)
    (htrans : ∀ a b c, le a b = true → le b c = true → le a c = true) :
    ∀ (l : List α), List.Chain' (fun a b => le a b = true) l →
      ∀ t, l.getLast? = some t → ∀ x ∈ l, le x t = true := by
  intro l
  induction l with
  | nil =>
    intro _ t ht
    simp at ht
  | cons y rest ih =>
    intro hch t ht x hx
    cases rest with
    | nil =>
      simp at ht hx
      subst ht
      subst hx
      rcases htot x x with h | h <;> exact h
    | cons z rest2 =>
      have ht' : (z :: rest2).getLast? = some t := by
        rw [List.getLast?_cons_cons] at ht
        exact ht
      rcases List.mem_cons.mp hx with rfl | hmem
      · exact htrans x z t (List.chain'_cons.mp hch).1
          (ih (List.chain'_cons.mp hch).2 t ht' z (List.mem_cons_self z rest2))
      · exact ih (List.chain'_cons.mp hch).2 t ht' x hmem

/-- Where Python's stable `sorted(stack + [x], key)` really puts the appended
element: after every element that is less-or-tied, before the first strictly
greater one. -/
def insAfterTies {α : Type} (le : α → α → Bool) (x : α) : List α → List α
  | [] => [x]
  | y :: l => if le y x then y :: insAfterTies le x l else x :: y :: l

theorem insAfterTies_ne_nil {α : Type} (le : α → α → Bool) (x : α) (l : List α) :
    insAfterTies le x l ≠ [] := by
  cases l with
  | nil => simp [insAfterTies]
  | cons y t =>
    simp only [insAfterTies]
    split <;> simp

theorem mem_insAfterTies {α : Type} (le : α → α → Bool) (x : α) (l : List α) (z : α) :
    z ∈ insAfterTies le x l ↔ z = x ∨ z ∈ l := by
  induction l with
  | nil => simp [insAfterTies]
  | cons y t ih =>
    simp only [insAfterTies]
    split
    · simp only [List.mem_cons, ih]
      try tauto
    · simp only [List.mem_cons]
      try tauto

theorem perm_insAfterTies {α : Type} (le : α → α → Bool) (x : α) (l : List α) :
    List.Perm (insAfterTies le x l) (x :: l) := by
  induction l with
  | nil => exact List.Perm.refl _
  | cons y t ih =>
    simp only [insAfterTies]
    split
    · exact (ih.cons y).trans (List.Perm.swap x y t)
    · exact List.Perm.refl _

theorem chain'_insAfterTies {α : Type} (le : α → α → Bool)
    (htot : ∀ a b, le a b = true ∨ le b a = true) (x : α) (l : List α)
    (hl : List.Chain' (fun a b => le a b = true) l) :
    List.Chain' (fun a b => le a b = true) (insAfterTies le x l) := by
  induction l with
  | nil => simp [insAfterTies]
  | cons y t ih =>
    simp only [insAfterTies]
    split
    · rename_i hyx
      rw [List.chain'_cons'] at hl ⊢
      refine ⟨?_, ih hl.2⟩
      intro w hw
      cases t with
      | nil =>
        simp [insAfterTies] at hw
        subst hw
        exact hyx
      | cons z t2 =>
        simp only [insAfterTies] at hw
        revert hw
        split
        · intro hw
          simp at hw
          subst hw
          exact hl.1 z rfl
        · intro hw
          simp at hw
          subst hw
          exact hyx
    · rename_i hyx
      exact hl.cons ((htot y x).resolve_left hyx)

theorem insAfterTies_all_le {α : Type} (le : α → α → Bool) (x : α) (l : List α)
    (h : ∀ y ∈ l, le y x = true) : insAfterTies le x l = l ++ [x] := by
  induction l with
  | nil => rfl
  | cons y t ih =>
    simp only [insAfterTies, if_pos (h y (List.mem_cons_self y t))]
    rw [ih (fun z hz => h z (List.mem_cons_of_mem y hz))]
    rfl

theorem getLast?_insAfterTies_of_gt {α : Type} (le : α → α → Bool) (x : α) (l : List α)
    (t : α) (ht : l.getLast? = some t) (hxt : le t x = false) :
    (insAfterTies le x l).getLast? = some t := by
  induction l with
  | nil => simp at ht
  | cons y rest ih =>
    cases rest with
    | nil =>
      simp at ht
      subst ht
      simp only [insAfterTies]
      rw [if_neg (by simp [hxt])]
      rfl
    | cons z rest2 =>
      have ht' : (z :: rest2).getLast? = some t := by
        rw [List.getLast?_cons_cons] at ht
        exact ht
      simp only [insAfterTies]
      split
      · have hrec := ih ht'
        obtain ⟨w, ws, hL⟩ : ∃ w ws, insAfterTies le x (z :: rest2) = w :: ws := by
          cases hc : insAfterTies le x (z :: rest2) with
          | nil => exact absurd hc (insAfterTies_ne_nil le x (z :: rest2))
          | cons w ws => exact ⟨w, ws, rfl⟩
        show (y :: insAfterTies le x (z :: rest2)).getLast? = some t
        rw [hL, List.getLast?_cons_cons]
        rw [hL] at hrec
        exact hrec
      · rw [List.getLast?_cons_cons, List.getLast?_cons_cons]
        exact ht'

/-- Appending a new element and stably re-sorting an already sorted list
places the new element after all its ties (this is how the source's
`sorted(stack + [idx], key=attr, reverse=reverse)` behaves on the
always-sorted stack). -/
theorem isortBy_append_last {α : Type} (le : α → α → Bool)
    (htot : ∀ a b, le a b = true ∨ le b a = true)
    (htrans : ∀ a b c, le a b = true → le b c = true → le a c = true)
    (S : List α) (x : α) (hS : List.Chain' (fun a b => le a b = true) S) :
    isortBy le (S ++ [x]) = insAfterTies le x S := by
  induction S with
  | nil => rfl
  | cons s S' ih =>
    have hS' := (List.chain'_cons'.mp hS).2
    rw [List.cons_append, isortBy, ih hS']
    by_cases hsx : le s x = true
    · -- s stays in front
      cases S' with
      | nil => simp [insAfterTies, insSorted, hsx]
      | cons u S2 =>
        by_cases hux : le u x = true
        · simp only [insAfterTies, if_pos hux, if_pos hsx]
          rw [insSorted, if_pos (List.chain'_cons.mp hS).1]
        · simp only [insAfterTies, if_neg hux, if_pos hsx]
          rw [insSorted, if_pos hsx]
    · have hxs : le x s = true := (htot s x).resolve_left hsx
      -- x jumps to the very front
      have hfront : insAfterTies le x S' = x :: S' := by
        cases S' with
        | nil => rfl
        | cons u S2 =>
          rw [insAfterTies, if_neg ?_]
          intro hux
          have hsu : le s u = true := (List.chain'_cons.mp hS).1
          exact hsx (htrans s u x hsu hux)
      rw [hfront, insAfterTies, if_neg (by simp [hsx]), insSorted, if_neg (by simp [hsx])]
      congr 1
      cases S' with
      | nil => rfl
      | cons u S2 =>
        rw [insSorted, if_pos (List.chain'_cons.mp hS).1]

/-- Filtering commutes with a stable insertion into a sorted list (for a total
transitive comparator). -/
theorem filter_insSorted {α : Type} (le : α → α → Bool) (p : α → Bool)
    (htrans : ∀ a b c, le a b = true → le b c = true → le a c = true)
    (x : α) (l : List α) (hl : List.Chain' (fun a b => le a b = true) l) :
    (insSorted le x l).filter p =
      if p x then insSorted le x (l.filter p) else l.filter p := by
  induction l with
  | nil => cases hpx : p x <;> simp [insSorted, List.filter_cons, hpx]
  | cons y rest ih =>
    rw [insSorted]
    by_cases hxy : le x y = true
    · rw [if_pos hxy, List.filter_cons]
      by_cases hpx : p x = true
      · rw [if_pos hpx, if_pos hpx, List.filter_cons]
        by_cases hpy : p y = true
        · rw [if_pos hpy, insSorted, if_pos hxy]
        · rw [if_neg hpy]
          cases hrf : rest.filter p with
          | nil => rfl
          | cons w tl =>
            have hw : w ∈ rest := by
              have : w ∈ rest.filter p := by rw [hrf]; exact List.mem_cons_self w tl
              exact List.mem_of_mem_filter this
            have hyw : le y w = true := chain'_head_le le htrans y rest hl w hw
            rw [insSorted, if_pos (htrans x y w hxy hyw)]
      · rw [if_neg hpx, if_neg hpx, List.filter_cons]
    · rw [if_neg hxy, List.filter_cons, List.filter_cons]
      have ihr := ih (List.chain'_cons'.mp hl).2
      by_cases hpy : p y = true
      · rw [if_pos hpy, if_pos hpy, ihr]
        by_cases hpx : p x = true
        · rw [if_pos hpx, if_pos hpx, insSorted, if_neg hxy]
        · rw [if_neg hpx, if_neg hpx]
      · rw [if_neg hpy, if_neg hpy, ihr]

/-- Filtering commutes with the stable sort (for a total transitive
comparator). -/
theorem filter_isortBy {α : Type} (le : α → α → Bool) (p : α → Bool) (l : List α)
    (htot : ∀ a b, le a b = true ∨ le b a = true)
    (htrans : ∀ a b c, le a b = true → le b c = true → le a c = true) :
    (isortBy le l).filter p = isortBy le (l.filter p) := by
  induction l with
  | nil => rfl
  | cons x rest ih =>
    rw [isortBy, filter_insSorted le p htrans x (isortBy le rest)
      (chain'_isortBy le htot rest), ih, List.filter_cons]
    by_cases hpx : p x = true
    · rw [if_pos hpx, if_pos hpx, isortBy]
    · rw [if_neg hpx, if_neg hpx]

/-! ### C1: facts about the event table -/

theorem mem_stripTableRaw (l : List Iv) (k : ℕ) (e : TEntry) (he : e ∈ stripTableRaw k l) :
    ∃ n, ∃ h : n < l.length, e.idx = k + n ∧
      (e = ⟨true, (l.get ⟨n, h⟩).top, k + n⟩ ∨ e = ⟨false, (l.get ⟨n, h⟩).base, k + n⟩) := by
  induction l generalizing k with
  | nil => cases he
  | cons iv rest ih =>
    rcases List.mem_cons.mp he with rfl | he'
    · exact ⟨0, by simp, by simp, Or.inl (by simp)⟩
    rcases List.mem_cons.mp he' with rfl | he2
    · exact ⟨0, by simp, by simp, Or.inr (by simp)⟩
    · obtain ⟨n, hn, hidx, hor⟩ := ih (k + 1) he2
      refine ⟨n + 1, by simpa using Nat.succ_lt_succ hn, by omega, ?_⟩
      rcases hor with h | h
      · left
        rw [h]
        simp only [List.get_cons_succ]
        congr 1
        omega
      · right
        rw [h]
        simp only [List.get_cons_succ]
        congr 1
        omega

theorem filter_stripTableRaw_lt (l : List Iv) (k j : ℕ) (hj : j < k) :
    (stripTableRaw k l).filter (fun e => e.idx = j) = [] := by
  induction l generalizing k with
  | nil => rfl
  | cons iv rest ih =>
    rw [stripTableRaw]
    rw [List.filter_cons, List.filter_cons]
    rw [if_neg (by simp; omega), if_neg (by simp; omega)]
    exact ih (k + 1) (by omega)

theorem filter_stripTableRaw (l : List Iv) (k : ℕ) :
    ∀ n, (h : n < l.length) →
      (stripTableRaw k l).filter (fun e => e.idx = k + n) =
        [⟨true, (l.get ⟨n, h⟩).top, k + n⟩, ⟨false, (l.get ⟨n, h⟩).base, k + n⟩] := by
  induction l generalizing k with
  | nil =>
    intro n h
    cases h
  | cons iv rest ih =>
    intro n h
    cases n with
    | zero =>
      have h1 := filter_stripTableRaw_lt rest (k + 1) k (by omega)
      simp [stripTableRaw, List.filter_cons, h1]
    | succ n' =>
      have h1 := ih (k + 1) n' (by simpa using Nat.lt_of_succ_lt_succ h)
      rw [show k + 1 + n' = k + (n' + 1) by omega] at h1
      rw [stripTableRaw, List.filter_cons, List.filter_cons]
      rw [if_neg (by simp), if_neg (by simp), h1]
      simp

theorem stripTable_sorted (l : List Iv) :
    List.Chain' (fun e e' : TEntry => e.depth ≤ e'.depth) (stripTable l) := by
  have h := chain'_isortBy (fun a b : TEntry => decide (a.depth ≤ b.depth))
    (fun a b => by rcases le_total a.depth b.depth with h | h <;> simp [h]) (stripTableRaw 0 l)
  exact h.imp (fun _ _ hab => of_decide_eq_true hab)

theorem mem_stripTable (l : List Iv) (e : TEntry) (he : e ∈ stripTable l) :
    ∃ h : e.idx < l.length,
      (e = ⟨true, (l.get ⟨e.idx, h⟩).top, e.idx⟩ ∨
       e = ⟨false, (l.get ⟨e.idx, h⟩).base, e.idx⟩) := by
  rw [stripTable, mem_isortBy] at he
  obtain ⟨n, hn, hidx, hor⟩ := mem_stripTableRaw l 0 e he
  simp only [Nat.zero_add] at hidx hor
  subst hidx
  exact ⟨hn, hor⟩

theorem filter_stripTable (l : List Iv) (hdep : ∀ iv ∈ l, iv.top ≤ iv.base)
    (j : ℕ) (h : j < l.length) :
    (stripTable l).filter (fun e => e.idx = j) =
      [⟨true, (l.get ⟨j, h⟩).top, j⟩, ⟨false, (l.get ⟨j, h⟩).base, j⟩] := by
  rw [stripTable, filter_isortBy _ _ _
    (fun a b => by rcases le_total a.depth b.depth with hc | hc <;> simp [hc])
    (fun a b c h1 h2 => by
      simp only [decide_eq_true_eq] at h1 h2 ⊢
      exact le_trans h1 h2)]
  have := filter_stripTableRaw l 0 j h
  simp only [Nat.zero_add] at this
  rw [this]
  rw [isortBy, isortBy, isortBy, insSorted, insSorted]
  rw [if_pos (by
    simp only [decide_eq_true_eq]
    exact hdep (l.get ⟨j, h⟩) (List.get_mem l _ _))]

/-! ### C1: the pairing of the output table -/

/-- The shape of a completed merge table: alternating Top/Base pairs over the
same source index, each pair nondecreasing, satisfying the per-pair property
`P`, and weakly before everything that follows. -/
inductive Paired (P : ℚ → ℚ → ℕ → Prop) : List TEntry → Prop where
  | nil : Paired P []
  | cons (d1 d2 : ℚ) (i : ℕ) (rest : List TEntry) :
      d1 ≤ d2 → (d1 ≠ d2 → P d1 d2 i) → (∀ e ∈ rest, d2 ≤ e.depth) → Paired P rest →
      Paired P (⟨true, d1, i⟩ :: ⟨false, d2, i⟩ :: rest)

theorem Paired.append_pair {P : ℚ → ℚ → ℕ → Prop} {m : List TEntry}
    (hm : Paired P m) (d1 d2 : ℚ) (i : ℕ)
    (hbound : ∀ e ∈ m, e.depth ≤ d1) (h12 : d1 ≤ d2) (hP : d1 ≠ d2 → P d1 d2 i) :
    Paired P (m ++ [⟨true, d1, i⟩, ⟨false, d2, i⟩]) := by
  induction hm with
  | nil =>
    exact Paired.cons d1 d2 i [] h12 hP (by simp) Paired.nil
  | cons e1 e2 j rest h1 h2 h3 h4 ih =>
    rw [List.cons_append, List.cons_append]
    refine Paired.cons e1 e2 j _ h1 h2 ?_ (ih (fun e he => hbound e (by simp [he])))
    intro e he
    rcases List.mem_append.mp he with he' | he'
    · exact h3 e he'
    · have hb1 : e2 ≤ d1 := hbound ⟨false, e2, j⟩ (by simp)
      rcases List.mem_cons.mp he' with rfl | he2
      · exact hb1
      rcases List.mem_cons.mp he2 with rfl | he3
      · exact le_trans hb1 h12
      · cases he3

theorem Paired.pairUp_append_single {P : ℚ → ℚ → ℕ → Prop} {m : List TEntry}
    (hm : Paired P m) (t : TEntry) : pairUp (m ++ [t]) = pairUp m := by
  induction hm with
  | nil => rfl
  | cons d1 d2 i rest _ _ _ _ ih =>
    rw [List.cons_append, List.cons_append, pairUp, pairUp, ih]

theorem Paired.pieces_spec {P : ℚ → ℚ → ℕ → Prop} {m : List TEntry}
    (hm : Paired P m) :
    (∀ q ∈ mergePieces m, q.top < q.base ∧ P q.top q.base q.src)
  ∧ List.Chain' (fun q r : Piece => q.base ≤ r.top) (mergePieces m)
  ∧ (∀ q ∈ mergePieces m, ∃ e ∈ m, q.top = e.depth) := by
  induction hm with
  | nil => exact ⟨by simp [mergePieces, pairUp], by simp [mergePieces, pairUp], by simp [mergePieces, pairUp]⟩
  | cons d1 d2 i rest h12 hP hbound _ ih =>
    obtain ⟨ih1, ih2, ih3⟩ := ih
    have hunf : mergePieces (⟨true, d1, i⟩ :: ⟨false, d2, i⟩ :: rest) =
        if d1 = d2 then mergePieces rest else Piece.mk d1 d2 i :: mergePieces rest := by
      by_cases h : d1 = d2
      · rw [if_pos h]
        simp [mergePieces, pairUp, h]
      · rw [if_neg h]
        simp [mergePieces, pairUp, h]
    by_cases heq : d1 = d2
    · rw [hunf, if_pos heq]
      refine ⟨ih1, ih2, ?_⟩
      intro q hq
      obtain ⟨e, he, hqe⟩ := ih3 q hq
      exact ⟨e, by simp [he], hqe⟩
    · rw [hunf, if_neg heq]
      have hlt : d1 < d2 := lt_of_le_of_ne h12 heq
      refine ⟨?_, ?_, ?_⟩
      · intro q hq
        rcases List.mem_cons.mp hq with rfl | hq'
        · exact ⟨hlt, hP heq⟩
        · exact ih1 q hq'
      · rw [List.chain'_cons']
        refine ⟨?_, ih2⟩
        intro r hr
        have hrm : r ∈ mergePieces rest := List.mem_of_mem_head? hr
        obtain ⟨e, he, hre⟩ := ih3 r hrm
        show d2 ≤ r.top
        rw [hre]
        exact hbound e he
      · intro q hq
        rcases List.mem_cons.mp hq with rfl | hq'
        · exact ⟨⟨true, d1, i⟩, by simp, rfl⟩
        · obtain ⟨e, he, hqe⟩ := ih3 q hq'
          exact ⟨e, by simp [he], hqe⟩

/-! ### C1: spans, winners, and the sweep bookkeeping -/

/-- The source interval at index `j` (dummy out of range; the sweep only ever
uses in-range indices). -/
def ivAt (l : List Iv) (j : ℕ) : Iv := l.getD j (Iv.mk 0 0 [])

/-- The `('T', top, j)` table entry of source interval `j`. -/
def tEnt (l : List Iv) (j : ℕ) : TEntry := ⟨true, (ivAt l j).top, j⟩

/-- The `('B', base, j)` table entry of source interval `j`. -/
def bEnt (l : List Iv) (j : ℕ) : TEntry := ⟨false, (ivAt l j).base, j⟩

/-- Source interval `j` covers the whole span `[d1, d2]`. -/
def coversAt (l : List Iv) (d1 d2 : ℚ) (j : ℕ) : Prop :=
  j < l.length ∧ (ivAt l j).top ≤ d1 ∧ d2 ≤ (ivAt l j).base

instance (l : List Iv) (d1 d2 : ℚ) (j : ℕ) : Decidable (coversAt l d1 d2 j) :=
  inferInstanceAs (Decidable (_ ∧ _))

/-- A merged piece `(d1, d2, i)` is won by its source: interval `i` covers the
span, and every source interval covering the span loses or ties against `i`
under the priority comparison. -/
def winsAt (A : ℕ → ℚ) (le : ℚ → ℚ → Bool) (l : List Iv) (d1 d2 : ℚ) (i : ℕ) : Prop :=
  coversAt l d1 d2 i ∧
    ∀ j, j < l.length → (ivAt l j).top ≤ d1 → d2 ≤ (ivAt l j).base →
      le (A j) (A i) = true

instance (A : ℕ → ℚ) (le : ℚ → ℚ → Bool) (l : List Iv) (d1 d2 : ℚ) (i : ℕ) :
    Decidable (winsAt A le l d1 d2 i) :=
  inferInstanceAs (Decidable (_ ∧ ∀ j, j < l.length → _))

theorem ivAt_eq_get (l : List Iv) (j : ℕ) (h : j < l.length) :
    ivAt l j = l.get ⟨j, h⟩ := by
  rw [ivAt]
  exact List.getD_eq_get l (Iv.mk 0 0 []) h

theorem mem_stripTable_wf (l : List Iv) (e : TEntry) (he : e ∈ stripTable l) :
    e.idx < l.length ∧ (e = tEnt l e.idx ∨ e = bEnt l e.idx) := by
  obtain ⟨h, hor⟩ := mem_stripTable l e he
  refine ⟨h, ?_⟩
  rw [tEnt, bEnt, ivAt_eq_get l e.idx h]
  exact hor

theorem filter_stripTable_ent (l : List Iv) (hdep : ∀ iv ∈ l, iv.top ≤ iv.base)
    (j : ℕ) (h : j < l.length) :
    (stripTable l).filter (fun e => e.idx = j) = [tEnt l j, bEnt l j] := by
  rw [tEnt, bEnt, ivAt_eq_get l j h]
  exact filter_stripTable l hdep j h

/-- Splitting a depth-sorted event table around an element bounds both sides. -/
theorem chain'_split_le (pre rest : List TEntry) (e : TEntry)
    (h : List.Chain' (fun a b : TEntry => a.depth ≤ b.depth) (pre ++ e :: rest)) :
    (∀ p ∈ pre, p.depth ≤ e.depth) ∧ ∀ r ∈ rest, e.depth ≤ r.depth := by
  have htr : ∀ a b c : TEntry, decide (a.depth ≤ b.depth) = true →
      decide (b.depth ≤ c.depth) = true → decide (a.depth ≤ c.depth) = true := by
    intro a b c h1 h2
    simp only [decide_eq_true_eq] at h1 h2 ⊢
    exact le_trans h1 h2
  constructor
  · have hpref : List.Chain' (fun a b : TEntry => a.depth ≤ b.depth) (pre ++ [e]) := by
      have h' := h
      rw [show pre ++ e :: rest = (pre ++ [e]) ++ rest by simp] at h'
      exact (List.chain'_append.mp h').1
    intro p hp
    have := chain'_le_getLast (fun a b : TEntry => decide (a.depth ≤ b.depth))
      (fun a b => by rcases le_total a.depth b.depth with hc | hc <;> simp [hc]) htr
      (pre ++ [e]) (hpref.imp (fun _ _ hab => by simpa using hab)) e
      (List.getLast?_concat pre) p (List.mem_append_left _ hp)
    simpa using this
  · intro r hr
    have h2 := (List.chain'_append.mp h).2.1
    have := chain'_head_le (fun a b : TEntry => decide (a.depth ≤ b.depth)) htr e rest
      (h2.imp (fun _ _ hab => by simpa using hab)) r hr
    simpa using this

/-- Erasing an element of a sorted list keeps it sorted (transitive
comparator). -/
theorem chain'_erase {α : Type} [DecidableEq α] (le : α → α → Bool)
    (htrans : ∀ a b c, le a b = true → le b c = true → le a c = true) (x : α) :
    ∀ s : List α, List.Chain' (fun a b => le a b = true) s →
      List.Chain' (fun a b => le a b = true) (s.erase x) := by
  intro s
  induction s with
  | nil => intro _; simp
  | cons y t ih =>
    intro hch
    by_cases hyx : y = x
    · subst hyx
      rw [List.erase_cons_head]
      exact (List.chain'_cons'.mp hch).2
    · rw [List.erase_cons_tail (by simp [hyx]), List.chain'_cons']
      refine ⟨?_, ih (List.chain'_cons'.mp hch).2⟩
      intro w hw
      have hwt : w ∈ t := List.mem_of_mem_erase (List.mem_of_mem_head? hw)
      exact chain'_head_le le htrans y t hch w hwt

theorem getLast?_decomp {α : Type} :
    ∀ (s : List α) (x : α), s.getLast? = some x → ∃ s₀, s = s₀ ++ [x] := by
  intro s
  induction s with
  | nil =>
    intro x h
    simp at h
  | cons y t ih =>
    intro x h
    cases t with
    | nil =>
      simp at h
      subst h
      exact ⟨[], rfl⟩
    | cons z t2 =>
      rw [List.getLast?_cons_cons] at h
      obtain ⟨s₀, hs⟩ := ih x h
      exact ⟨y :: s₀, by rw [List.cons_append, ← hs]⟩

/-- Which of its two entries of each source interval a processed prefix of the
event table has seen: none, the top only, or both. -/
theorem table_filter_split (l : List Iv) (hdep : ∀ iv ∈ l, iv.top ≤ iv.base)
    (pre suf : List TEntry) (hsplit : stripTable l = pre ++ suf)
    (j : ℕ) (hj : j < l.length) :
    (pre.filter (fun e => e.idx = j) = [] ∧
      suf.filter (fun e => e.idx = j) = [tEnt l j, bEnt l j]) ∨
    (pre.filter (fun e => e.idx = j) = [tEnt l j] ∧
      suf.filter (fun e => e.idx = j) = [bEnt l j]) ∨
    (pre.filter (fun e => e.idx = j) = [tEnt l j, bEnt l j] ∧
      suf.filter (fun e => e.idx = j) = []) := by
  have hfull := filter_stripTable_ent l hdep j hj
  rw [hsplit, List.filter_append] at hfull
  cases hxs : pre.filter (fun e => e.idx = j) with
  | nil =>
    left
    rw [hxs, List.nil_append] at hfull
    exact ⟨rfl, hfull⟩
  | cons a xs =>
    rw [hxs, List.cons_append] at hfull
    injection hfull with ha hrest
    cases xs with
    | nil =>
      right
      left
      rw [List.nil_append] at hrest
      exact ⟨by rw [ha], hrest⟩
    | cons b xs2 =>
      right
      right
      rw [List.cons_append] at hrest
      injection hrest with hb hrest2
      obtain ⟨h1, h2⟩ := List.append_eq_nil.mp hrest2
      exact ⟨by rw [ha, hb, h1], h2⟩

theorem mergeStep_top_nil (A : ℕ → ℚ) (le : ℚ → ℚ → Bool) (mg : List TEntry)
    (d : ℚ) (j : ℕ) :
    mergeStep A le (mg, []) ⟨true, d, j⟩ = .ok (mg ++ [⟨true, d, j⟩], [j]) := rfl

theorem mergeStep_top_last (A : ℕ → ℚ) (le : ℚ → ℚ → Bool) (mg : List TEntry)
    (sk : List ℕ) (d : ℚ) (j i : ℕ) (hlast : sk.getLast? = some i) :
    mergeStep A le (mg, sk) ⟨true, d, j⟩ =
      .ok ((if le (A i) (A j) then (mg ++ [⟨false, d, i⟩]) ++ [⟨true, d, j⟩] else mg),
           isortBy (fun a b => le (A a) (A b)) (sk ++ [j])) := by
  simp only [mergeStep, hlast]
  rw [if_pos trivial]

theorem mergeStep_base_close (A : ℕ → ℚ) (le : ℚ → ℚ → Bool) (mg : List TEntry)
    (sk₀ : List ℕ) (i : ℕ) (d : ℚ) (h0 : i ∉ sk₀) :
    mergeStep A le (mg, sk₀ ++ [i]) ⟨false, d, i⟩ =
      .ok ((match sk₀.getLast? with
            | some c2 => (mg ++ [⟨false, d, i⟩]) ++ [⟨true, d, c2⟩]
            | none => mg ++ [⟨false, d, i⟩]), sk₀) := by
  have her : (sk₀ ++ [i]).erase i = sk₀ := by
    rw [List.erase_append_right _ h0, List.erase_cons_head, List.append_nil]
  have hcont : (sk₀ ++ [i]).contains i = true := by simp
  simp only [mergeStep, List.getLast?_concat, her, hcont]
  simp

theorem mergeStep_base_pass (A : ℕ → ℚ) (le : ℚ → ℚ → Bool) (mg : List TEntry)
    (sk : List ℕ) (i j : ℕ) (d : ℚ) (hlast : sk.getLast? = some i) (hne : j ≠ i)
    (hmem : j ∈ sk) :
    mergeStep A le (mg, sk) ⟨false, d, j⟩ = .ok (mg, sk.erase j) := by
  have hcont : sk.contains j = true := by simp [hmem]
  have hdec : decide (j = i) = false := by simp [hne]
  simp only [mergeStep, hlast, hcont, hdec]
  cases hc : (sk.erase j).getLast? <;> simp

theorem nil_of_getLast?_none {α : Type} :
    ∀ s : List α, s.getLast? = none → s = [] := by
  intro s
  cases s with
  | nil => intro _; rfl
  | cons y t =>
    intro h
    exfalso
    induction t generalizing y with
    | nil => simp at h
    | cons z t2 ih =>
      rw [List.getLast?_cons_cons] at h
      exact ih z h

theorem mem_of_getLast?_eq {α : Type} (s : List α) (x : α) (h : s.getLast? = some x) :
    x ∈ s := by
  obtain ⟨s₀, rfl⟩ := getLast?_decomp s x h
  exact List.mem_append_right _ (List.mem_singleton.mpr rfl)

theorem tEnt_mem_table (l : List Iv) (hdep : ∀ iv ∈ l, iv.top ≤ iv.base)
    (j : ℕ) (hj : j < l.length) : tEnt l j ∈ stripTable l := by
  have h4 : tEnt l j ∈ (stripTable l).filter (fun x => x.idx = j) := by
    rw [filter_stripTable_ent l hdep j hj]
    exact List.mem_cons_self _ _
  exact List.mem_of_mem_filter h4

theorem bEnt_mem_table (l : List Iv) (hdep : ∀ iv ∈ l, iv.top ≤ iv.base)
    (j : ℕ) (hj : j < l.length) : bEnt l j ∈ stripTable l := by
  have h4 : bEnt l j ∈ (stripTable l).filter (fun x => x.idx = j) := by
    rw [filter_stripTable_ent l hdep j hj]
    exact List.mem_cons_of_mem _ (List.mem_singleton.mpr rfl)
  exact List.mem_of_mem_filter h4

/-- Bookkeeping invariant of the `_merge_table` sweep after processing the
prefix `pre` of the event table: `mg` is the emitted table so far, `sk` the
stack.  The stack holds exactly the intervals whose top has been seen but not
their base, stably sorted by priority with the current winner last; the
emitted table is a run of won Top/Base pairs, possibly still waiting for the
closing Base of its last entry. -/
structure SweepInv (A : ℕ → ℚ) (le : ℚ → ℚ → Bool) (l : List Iv)
    (pre mg : List TEntry) (sk : List ℕ) : Prop where
  stack_mem : ∀ j, j ∈ sk ↔ (j < l.length ∧ tEnt l j ∈ pre ∧ bEnt l j ∉ pre)
  stack_nodup : sk.Nodup
  stack_sorted : List.Chain' (fun a b => le (A a) (A b) = true) sk
  mg_depths : ∀ x ∈ mg, ∃ p ∈ pre, x.depth = p.depth
  parse : (sk = [] ∧ Paired (winsAt A le l) mg) ∨
    ∃ done dT i, mg = done ++ [⟨true, dT, i⟩] ∧
      Paired (winsAt A le l) done ∧
      (∀ x ∈ done, x.depth ≤ dT) ∧
      sk.getLast? = some i ∧
      i < l.length ∧
      (ivAt l i).top ≤ dT ∧
      ∀ j, j < l.length → bEnt l j ∈ pre → dT < (ivAt l j).base →
        le (A j) (A i) = true

theorem sweepInv_init (A : ℕ → ℚ) (le : ℚ → ℚ → Bool) (l : List Iv) :
    SweepInv A le l [] [] [] := by
  refine ⟨?_, List.nodup_nil, List.chain'_nil, ?_, Or.inl ⟨rfl, Paired.nil⟩⟩
  · intro j
    simp
  · intro x hx
    simp at hx

/-- Closing the open pair of the sweep at the current event's depth yields a
winning piece: every source interval covering the span is either still on the
stack (hence loses to the stack's last element) or was closed during the pair
(recorded by the winner clause). -/
theorem close_wins (A : ℕ → ℚ) (le : ℚ → ℚ → Bool)
    (htot : ∀ a b, le a b = true ∨ le b a = true)
    (htrans : ∀ a b c, le a b = true → le b c = true → le a c = true)
    (l : List Iv) (hdep : ∀ iv ∈ l, iv.top ≤ iv.base)
    (pre rest : List TEntry) (e : TEntry) (hsplit : stripTable l = pre ++ e :: rest)
    (sk : List ℕ) (i : ℕ) (dT : ℚ)
    (smem : ∀ j, j ∈ sk ↔ (j < l.length ∧ tEnt l j ∈ pre ∧ bEnt l j ∉ pre))
    (ssort : List.Chain' (fun a b => le (A a) (A b) = true) sk)
    (hlast : sk.getLast? = some i)
    (hi : i < l.length) (htopi : (ivAt l i).top ≤ dT)
    (hW : ∀ j2, j2 < l.length → bEnt l j2 ∈ pre → dT < (ivAt l j2).base →
        le (A j2) (A i) = true)
    (hd2 : e.depth ≤ (ivAt l i).base)
    (hdle : dT ≤ e.depth)
    (hne : dT ≠ e.depth) :
    winsAt A le l dT e.depth i := by
  have hlt : dT < e.depth := lt_of_le_of_ne hdle hne
  have hsort := stripTable_sorted l
  rw [hsplit] at hsort
  obtain ⟨hpree, hreste⟩ := chain'_split_le pre rest e hsort
  refine ⟨⟨hi, htopi, hd2⟩, ?_⟩
  intro j2 hj2 hjtop hjbase
  rcases table_filter_split l hdep pre (e :: rest) hsplit j2 hj2 with
    ⟨h1, h2⟩ | ⟨h1, h2⟩ | ⟨h1, h2⟩
  · exfalso
    have hT2f : tEnt l j2 ∈ (e :: rest).filter (fun x => x.idx = j2) := by
      rw [h2]
      exact List.mem_cons_self _ _
    have hT2 : tEnt l j2 ∈ e :: rest := List.mem_of_mem_filter hT2f
    rcases List.mem_cons.mp hT2 with h3 | h3
    · have h4 : (ivAt l j2).top = e.depth := congrArg TEntry.depth h3
      rw [h4] at hjtop
      exact absurd hlt (not_lt.mpr hjtop)
    · have h4 : e.depth ≤ (ivAt l j2).top := hreste _ h3
      exact absurd hlt (not_lt.mpr (le_trans h4 hjtop))
  · have hT2f : tEnt l j2 ∈ pre.filter (fun x => x.idx = j2) := by
      rw [h1]
      exact List.mem_singleton.mpr rfl
    have hT2 : tEnt l j2 ∈ pre := List.mem_of_mem_filter hT2f
    have hB2 : bEnt l j2 ∉ pre := by
      intro hb
      have h4 : bEnt l j2 ∈ pre.filter (fun x => x.idx = j2) :=
        List.mem_filter.mpr ⟨hb, by simp [bEnt]⟩
      rw [h1, List.mem_singleton, bEnt, tEnt] at h4
      simp at h4
    have hj2sk : j2 ∈ sk := (smem j2).mpr ⟨hj2, hT2, hB2⟩
    exact chain'_le_getLast _ (fun a b => htot (A a) (A b))
      (fun a b c hab hbc => htrans _ _ _ hab hbc) sk ssort i hlast j2 hj2sk
  · have hB2f : bEnt l j2 ∈ pre.filter (fun x => x.idx = j2) := by
      rw [h1]
      exact List.mem_cons_of_mem _ (List.mem_singleton.mpr rfl)
    have hB2 : bEnt l j2 ∈ pre := List.mem_of_mem_filter hB2f
    exact hW j2 hj2 hB2 (lt_of_lt_of_le hlt hjbase)

/-- The sweep step on a `('T', top, j)` event preserves the invariant. -/
theorem sweep_step_top (A : ℕ → ℚ) (le : ℚ → ℚ → Bool)
    (htot : ∀ a b, le a b = true ∨ le b a = true)
    (htrans : ∀ a b c, le a b = true → le b c = true → le a c = true)
    (l : List Iv) (hdep : ∀ iv ∈ l, iv.top ≤ iv.base)
    (pre rest : List TEntry) (e : TEntry)
    (hsplit : stripTable l = pre ++ e :: rest) (hT : e = tEnt l e.idx)
    (mg : List TEntry) (sk : List ℕ)
    (inv : SweepInv A le l pre mg sk) :
    ∃ mg' sk', mergeStep A le (mg, sk) e = .ok (mg', sk') ∧
      SweepInv A le l (pre ++ [e]) mg' sk' := by
  obtain ⟨smem, snd, ssort, mdep, par⟩ := inv
  obtain ⟨bb, dd, j⟩ := e
  simp only [tEnt, TEntry.mk.injEq] at hT
  obtain ⟨rfl, rfl, -⟩ := hT
  have hmemE : (⟨true, (ivAt l j).top, j⟩ : TEntry) ∈ stripTable l := by
    rw [hsplit]
    exact List.mem_append_right _ (List.mem_cons_self _ _)
  have hj : j < l.length := (mem_stripTable_wf l _ hmemE).1
  have hsort := stripTable_sorted l
  rw [hsplit] at hsort
  obtain ⟨hpree, hreste⟩ := chain'_split_le pre rest _ hsort
  have hpf : pre.filter (fun x => x.idx = j) = [] ∧
      rest.filter (fun x => x.idx = j) = [bEnt l j] := by
    rcases table_filter_split l hdep pre (⟨true, (ivAt l j).top, j⟩ :: rest) hsplit j hj with
      ⟨h1, h2⟩ | ⟨h1, h2⟩ | ⟨h1, h2⟩
    · rw [List.filter_cons, if_pos (by simp)] at h2
      injection h2 with h3 h4
      exact ⟨h1, h4⟩
    · rw [List.filter_cons, if_pos (by simp)] at h2
      injection h2 with h3 h4
      rw [bEnt] at h3
      simp at h3
    · rw [List.filter_cons, if_pos (by simp)] at h2
      simp at h2
  obtain ⟨hpf0, hrf⟩ := hpf
  have hnotpre : ∀ x ∈ pre, x.idx ≠ j := by
    intro x hx hc
    have h4 : x ∈ pre.filter (fun x => x.idx = j) := List.mem_filter.mpr ⟨hx, by simp [hc]⟩
    rw [hpf0] at h4
    simp at h4
  have hTpre : tEnt l j ∉ pre := fun hx => hnotpre _ hx rfl
  have hBpre : bEnt l j ∉ pre := fun hx => hnotpre _ hx rfl
  have hjsk : j ∉ sk := fun hin => hTpre ((smem j).mp hin).2.1
  have hmemP : ∀ x : TEntry, x.idx ≠ j →
      (x ∈ pre ++ [⟨true, (ivAt l j).top, j⟩] ↔ x ∈ pre) := by
    intro x hne
    rw [List.mem_append, List.mem_singleton]
    constructor
    · rintro (h | rfl)
      · exact h
      · exact absurd rfl hne
    · exact Or.inl
  have hTpre' : tEnt l j ∈ pre ++ [⟨true, (ivAt l j).top, j⟩] := by
    rw [tEnt]
    exact List.mem_append_right _ (List.mem_singleton.mpr rfl)
  have hBpre' : bEnt l j ∉ pre ++ [⟨true, (ivAt l j).top, j⟩] := by
    rw [List.mem_append, List.mem_singleton]
    rintro (h | h)
    · exact hBpre h
    · rw [bEnt] at h
      simp at h
  have hBorig : ∀ j2, bEnt l j2 ∈ pre ++ [⟨true, (ivAt l j).top, j⟩] → bEnt l j2 ∈ pre := by
    intro j2 hB2
    rcases List.mem_append.mp hB2 with h | h
    · exact h
    · rw [List.mem_singleton, bEnt] at h
      simp at h
  cases hskL : sk.getLast? with
  | none =>
    have hske : sk = [] := nil_of_getLast?_none sk hskL
    subst hske
    have hmg : Paired (winsAt A le l) mg := by
      rcases par with ⟨_, hp⟩ | ⟨done, dT, i, _, _, _, hlast, _⟩
      · exact hp
      · simp at hlast
    refine ⟨mg ++ [⟨true, (ivAt l j).top, j⟩], [j], mergeStep_top_nil A le mg _ j,
      ?_, ?_, ?_, ?_, ?_⟩
    · intro j2
      rw [List.mem_singleton]
      constructor
      · rintro rfl
        exact ⟨hj, hTpre', hBpre'⟩
      · rintro ⟨hj2, hT2, hB2⟩
        by_contra hne
        have h5 := (smem j2).mpr ⟨hj2,
          (hmemP (tEnt l j2) (by simp [tEnt]; exact hne)).mp hT2,
          fun hB => hB2 ((hmemP (bEnt l j2) (by simp [bEnt]; exact hne)).mpr hB)⟩
        simp at h5
    · simp
    · simp
    · intro x hx
      rcases List.mem_append.mp hx with h | h
      · obtain ⟨p, hp, hed⟩ := mdep x h
        exact ⟨p, List.mem_append_left _ hp, hed⟩
      · rw [List.mem_singleton] at h
        subst h
        exact ⟨_, List.mem_append_right _ (List.mem_singleton.mpr rfl), rfl⟩
    · right
      refine ⟨mg, (ivAt l j).top, j, rfl, hmg, ?_, rfl, hj, le_refl _, ?_⟩
      · intro x hx
        obtain ⟨p, hp, hed⟩ := mdep x hx
        rw [hed]
        exact hpree p hp
      · intro j2 hj2 hB2 hltb
        have hB2p := hBorig j2 hB2
        have h6 : (ivAt l j2).base ≤ (ivAt l j).top := hpree _ hB2p
        exact absurd hltb (not_lt.mpr h6)
  | some i =>
    rcases par with ⟨hskn, _⟩ | ⟨done, dT, i2, hmgeq, hpd, hbound, hlast, hi, htopi, hW⟩
    · rw [hskn] at hskL
      simp at hskL
    rw [hskL] at hlast
    injection hlast with hlast2
    subst hlast2
    have hiS : i ∈ sk := mem_of_getLast?_eq sk i hskL
    have hdle : dT ≤ (ivAt l j).top := by
      obtain ⟨p, hp, hdp⟩ := mdep ⟨true, dT, i⟩
        (by rw [hmgeq]; exact List.mem_append_right _ (List.mem_singleton.mpr rfl))
      rw [show ((⟨true, dT, i⟩ : TEntry).depth) = dT from rfl] at hdp
      rw [hdp]
      exact hpree p hp
    have hd2 : (ivAt l j).top ≤ (ivAt l i).base := by
      have hBi : bEnt l i ∉ pre := ((smem i).mp hiS).2.2
      have hBiT : bEnt l i ∈ stripTable l := bEnt_mem_table l hdep i hi
      rw [hsplit] at hBiT
      rcases List.mem_append.mp hBiT with h | h
      · exact absurd h hBi
      · rcases List.mem_cons.mp h with h2 | h2
        · rw [bEnt] at h2
          simp at h2
        · exact hreste _ h2
    by_cases hmrg : le (A i) (A j) = true
    · -- merge: close the open pair, open a fresh one for j
      have hstk : isortBy (fun a b => le (A a) (A b)) (sk ++ [j]) = sk ++ [j] := by
        rw [isortBy_append_last _ (fun a b => htot (A a) (A b))
          (fun a b c hab hbc => htrans _ _ _ hab hbc) sk j ssort]
        exact insAfterTies_all_le _ _ _ (fun y hy => htrans _ _ _
          (chain'_le_getLast _ (fun a b => htot (A a) (A b))
            (fun a b c hab hbc => htrans _ _ _ hab hbc) sk ssort i hskL y hy) hmrg)
      have hwin : dT ≠ (ivAt l j).top → winsAt A le l dT ((ivAt l j).top) i :=
        fun hne => close_wins A le htot htrans l hdep pre rest _ hsplit sk i dT
          smem ssort hskL hi htopi hW hd2 hdle hne
      have hdone' := Paired.append_pair hpd dT ((ivAt l j).top) i hbound hdle hwin
      refine ⟨(mg ++ [⟨false, (ivAt l j).top, i⟩]) ++ [⟨true, (ivAt l j).top, j⟩], sk ++ [j],
        by rw [mergeStep_top_last A le mg sk _ j i hskL, if_pos hmrg, hstk], ?_, ?_, ?_, ?_, ?_⟩
      · intro j2
        rw [List.mem_append, List.mem_singleton]
        constructor
        · rintro (h | rfl)
          · obtain ⟨hj2, hT2, hB2⟩ := (smem j2).mp h
            refine ⟨hj2, (hmemP (tEnt l j2) ?_).mpr hT2, fun hB => hB2 (hBorig j2 hB)⟩
            intro hc
            rw [tEnt] at hc
            exact hjsk (hc ▸ h)
          · exact ⟨hj, hTpre', hBpre'⟩
        · rintro ⟨hj2, hT2, hB2⟩
          by_cases hne : j2 = j
          · exact Or.inr hne
          · left
            exact (smem j2).mpr ⟨hj2, (hmemP (tEnt l j2) (by simp [tEnt]; exact hne)).mp hT2,
              fun hB => hB2 ((hmemP (bEnt l j2) (by simp [bEnt]; exact hne)).mpr hB)⟩
      · rw [List.nodup_append]
        exact ⟨snd, List.nodup_singleton j,
          fun a ha hb => hjsk (by rwa [List.mem_singleton.mp hb] at ha)⟩
      · rw [List.chain'_append]
        refine ⟨ssort, by simp, ?_⟩
        intro x hx y hy
        rw [hskL] at hx
        injection hx with hx2
        subst hx2
        simp only [List.head?_cons, Option.mem_def, Option.some.injEq] at hy
        subst hy
        exact hmrg
      · intro x hx
        rcases List.mem_append.mp hx with h | h
        · rcases List.mem_append.mp h with h2 | h2
          · obtain ⟨p, hp, hed⟩ := mdep x h2
            exact ⟨p, List.mem_append_left _ hp, hed⟩
          · rw [List.mem_singleton] at h2
            subst h2
            exact ⟨_, List.mem_append_right _ (List.mem_singleton.mpr rfl), rfl⟩
        · rw [List.mem_singleton] at h
          subst h
          exact ⟨_, List.mem_append_right _ (List.mem_singleton.mpr rfl), rfl⟩
      · right
        refine ⟨done ++ [⟨true, dT, i⟩, ⟨false, (ivAt l j).top, i⟩], (ivAt l j).top, j,
          by rw [hmgeq]; simp, hdone', ?_, List.getLast?_concat sk, hj, le_refl _, ?_⟩
        · intro x hx
          rcases List.mem_append.mp hx with h | h
          · exact le_trans (hbound x h) hdle
          · rcases List.mem_cons.mp h with h2 | h2
            · subst h2
              exact hdle
            · rw [List.mem_singleton] at h2
              subst h2
              exact le_refl _
        · intro j2 hj2 hB2 hltb
          have hB2p := hBorig j2 hB2
          have h6 : (ivAt l j2).base ≤ (ivAt l j).top := hpree _ hB2p
          exact absurd hltb (not_lt.mpr h6)
    · -- no merge: the new unit is stacked below the current winner
      have hmrgf : le (A i) (A j) = false := by
        cases hc : le (A i) (A j) with
        | false => rfl
        | true => exact absurd hc hmrg
      have hstk : isortBy (fun a b => le (A a) (A b)) (sk ++ [j]) =
          insAfterTies (fun a b => le (A a) (A b)) j sk := by
        rw [isortBy_append_last _ (fun a b => htot (A a) (A b))
          (fun a b c hab hbc => htrans _ _ _ hab hbc) sk j ssort]
      refine ⟨mg, insAfterTies (fun a b => le (A a) (A b)) j sk,
        by rw [mergeStep_top_last A le mg sk _ j i hskL, if_neg (by simp [hmrgf]), hstk],
        ?_, ?_, ?_, ?_, ?_⟩
      · intro j2
        rw [mem_insAfterTies]
        constructor
        · rintro (rfl | h)
          · exact ⟨hj, hTpre', hBpre'⟩
          · obtain ⟨hj2, hT2, hB2⟩ := (smem j2).mp h
            refine ⟨hj2, (hmemP (tEnt l j2) ?_).mpr hT2, fun hB => hB2 (hBorig j2 hB)⟩
            intro hc
            rw [tEnt] at hc
            exact hjsk (hc ▸ h)
        · rintro ⟨hj2, hT2, hB2⟩
          by_cases hne : j2 = j
          · exact Or.inl hne
          · right
            exact (smem j2).mpr ⟨hj2, (hmemP (tEnt l j2) (by simp [tEnt]; exact hne)).mp hT2,
              fun hB => hB2 ((hmemP (bEnt l j2) (by simp [bEnt]; exact hne)).mpr hB)⟩
      · exact (perm_insAfterTies _ j sk).nodup_iff.mpr (List.nodup_cons.mpr ⟨hjsk, snd⟩)
      · exact chain'_insAfterTies _ (fun a b => htot (A a) (A b)) j sk ssort
      · intro x hx
        obtain ⟨p, hp, hed⟩ := mdep x hx
        exact ⟨p, List.mem_append_left _ hp, hed⟩
      · right
        refine ⟨done, dT, i, hmgeq, hpd, hbound,
          getLast?_insAfterTies_of_gt _ j sk i hskL hmrgf, hi, htopi, ?_⟩
        intro j2 hj2 hB2 hltb
        exact hW j2 hj2 (hBorig j2 hB2) hltb

/-- The sweep step on a `('B', base, j)` event preserves the invariant and
never errors: with every top above its base, the top of `j` was already
processed, so `j` is on the stack. -/
theorem sweep_step_base (A : ℕ → ℚ) (le : ℚ → ℚ → Bool)
    (htot : ∀ a b, le a b = true ∨ le b a = true)
    (htrans : ∀ a b c, le a b = true → le b c = true → le a c = true)
    (l : List Iv) (hdep : ∀ iv ∈ l, iv.top ≤ iv.base)
    (pre rest : List TEntry) (e : TEntry)
    (hsplit : stripTable l = pre ++ e :: rest) (hB : e = bEnt l e.idx)
    (mg : List TEntry) (sk : List ℕ)
    (inv : SweepInv A le l pre mg sk) :
    ∃ mg' sk', mergeStep A le (mg, sk) e = .ok (mg', sk') ∧
      SweepInv A le l (pre ++ [e]) mg' sk' := by
  obtain ⟨smem, snd, ssort, mdep, par⟩ := inv
  obtain ⟨bb, dd, j⟩ := e
  simp only [bEnt, TEntry.mk.injEq] at hB
  obtain ⟨rfl, rfl, -⟩ := hB
  have hmemE : (⟨false, (ivAt l j).base, j⟩ : TEntry) ∈ stripTable l := by
    rw [hsplit]
    exact List.mem_append_right _ (List.mem_cons_self _ _)
  have hj : j < l.length := (mem_stripTable_wf l _ hmemE).1
  have hsort := stripTable_sorted l
  rw [hsplit] at hsort
  obtain ⟨hpree, hreste⟩ := chain'_split_le pre rest _ hsort
  have hpf : pre.filter (fun x => x.idx = j) = [tEnt l j] ∧
      rest.filter (fun x => x.idx = j) = [] := by
    rcases table_filter_split l hdep pre (⟨false, (ivAt l j).base, j⟩ :: rest) hsplit j hj with
      ⟨h1, h2⟩ | ⟨h1, h2⟩ | ⟨h1, h2⟩
    · rw [List.filter_cons, if_pos (by simp)] at h2
      injection h2 with h3 h4
      rw [tEnt] at h3
      simp at h3
    · rw [List.filter_cons, if_pos (by simp)] at h2
      injection h2 with h3 h4
      exact ⟨h1, h4⟩
    · rw [List.filter_cons, if_pos (by simp)] at h2
      simp at h2
  obtain ⟨hpf2, hrf⟩ := hpf
  have hTpre : tEnt l j ∈ pre := by
    have h4 : tEnt l j ∈ pre.filter (fun x => x.idx = j) := by
      rw [hpf2]
      exact List.mem_singleton.mpr rfl
    exact List.mem_of_mem_filter h4
  have hBpre : bEnt l j ∉ pre := by
    intro hb
    have h4 : bEnt l j ∈ pre.filter (fun x => x.idx = j) :=
      List.mem_filter.mpr ⟨hb, by simp [bEnt]⟩
    rw [hpf2, List.mem_singleton, bEnt, tEnt] at h4
    simp at h4
  have hjsk : j ∈ sk := (smem j).mpr ⟨hj, hTpre, hBpre⟩
  rcases par with ⟨hskn, _⟩ | ⟨done, dT, i, hmgeq, hpd, hbound, hlast, hi, htopi, hW⟩
  · rw [hskn] at hjsk
    simp at hjsk
  have hmemP : ∀ x : TEntry, x.idx ≠ j →
      (x ∈ pre ++ [⟨false, (ivAt l j).base, j⟩] ↔ x ∈ pre) := by
    intro x hne
    rw [List.mem_append, List.mem_singleton]
    constructor
    · rintro (h | rfl)
      · exact h
      · exact absurd rfl hne
    · exact Or.inl
  have hTorig : ∀ j2, tEnt l j2 ∈ pre ++ [⟨false, (ivAt l j).base, j⟩] → tEnt l j2 ∈ pre := by
    intro j2 hT2
    rcases List.mem_append.mp hT2 with h | h
    · exact h
    · rw [List.mem_singleton, tEnt] at h
      simp at h
  have hBnew : bEnt l j ∈ pre ++ [⟨false, (ivAt l j).base, j⟩] := by
    rw [bEnt]
    exact List.mem_append_right _ (List.mem_singleton.mpr rfl)
  have hBug : ∀ j2, bEnt l j2 ∈ pre ++ [⟨false, (ivAt l j).base, j⟩] → j2 ≠ j →
      bEnt l j2 ∈ pre := by
    intro j2 h hne
    rcases List.mem_append.mp h with h2 | h2
    · exact h2
    · rw [List.mem_singleton, bEnt] at h2
      exfalso
      exact hne (by simpa using congrArg TEntry.idx h2)
  have hdle : dT ≤ (ivAt l j).base := by
    obtain ⟨p, hp, hdp⟩ := mdep ⟨true, dT, i⟩
      (by rw [hmgeq]; exact List.mem_append_right _ (List.mem_singleton.mpr rfl))
    rw [show ((⟨true, dT, i⟩ : TEntry).depth) = dT from rfl] at hdp
    rw [hdp]
    exact hpree p hp
  obtain ⟨sk₁, rfl⟩ := getLast?_decomp sk i hlast
  have hins : i ∉ sk₁ := fun hmem2 =>
    (List.nodup_append.mp snd).2.2 hmem2 (List.mem_singleton.mpr rfl)
  by_cases hji : j = i
  · subst hji
    have hwin : dT ≠ (ivAt l j).base → winsAt A le l dT ((ivAt l j).base) j :=
      fun hne => close_wins A le htot htrans l hdep pre rest _ hsplit (sk₁ ++ [j]) j dT
        smem ssort hlast hi htopi hW (le_refl _) hdle hne
    have hdone' := Paired.append_pair hpd dT ((ivAt l j).base) j hbound hdle hwin
    cases hc : sk₁.getLast? with
    | none =>
      have hsk1 : sk₁ = [] := nil_of_getLast?_none sk₁ hc
      subst hsk1
      refine ⟨mg ++ [⟨false, (ivAt l j).base, j⟩], [],
        mergeStep_base_close A le mg [] j ((ivAt l j).base) hins,
        ?_, List.nodup_nil, List.chain'_nil, ?_, Or.inl ⟨rfl, ?_⟩⟩
      · intro j2
        simp only [List.not_mem_nil, false_iff]
        rintro ⟨hj2, hT2, hB2⟩
        by_cases hne : j2 = j
        · subst hne
          exact hB2 hBnew
        · have h6 : j2 ∈ ([] ++ [j] : List ℕ) := (smem j2).mpr ⟨hj2, hTorig j2 hT2,
            fun hb => hB2 (List.mem_append_left _ hb)⟩
          rw [List.nil_append, List.mem_singleton] at h6
          exact hne h6
      · intro x hx
        rcases List.mem_append.mp hx with h | h
        · obtain ⟨p, hp, hed⟩ := mdep x h
          exact ⟨p, List.mem_append_left _ hp, hed⟩
        · rw [List.mem_singleton] at h
          subst h
          exact ⟨_, List.mem_append_right _ (List.mem_singleton.mpr rfl), rfl⟩
      · rw [hmgeq]
        have hre : (done ++ [⟨true, dT, j⟩]) ++ [⟨false, (ivAt l j).base, j⟩] =
            done ++ [⟨true, dT, j⟩, ⟨false, (ivAt l j).base, j⟩] := by simp
        rw [hre]
        exact hdone'
    | some c2 =>
      have hc2m1 : c2 ∈ sk₁ := mem_of_getLast?_eq sk₁ c2 hc
      have hc2sk : c2 ∈ sk₁ ++ [j] := List.mem_append_left _ hc2m1
      obtain ⟨hc2len, hc2T, hc2B⟩ := (smem c2).mp hc2sk
      have hc2ne : c2 ≠ j := fun h => hins (h ▸ hc2m1)
      have hc2top : (ivAt l c2).top ≤ (ivAt l j).base := hpree _ hc2T
      refine ⟨(mg ++ [⟨false, (ivAt l j).base, j⟩]) ++ [⟨true, (ivAt l j).base, c2⟩], sk₁,
        by rw [mergeStep_base_close A le mg sk₁ j ((ivAt l j).base) hins, hc],
        ?_, (List.nodup_append.mp snd).1, (List.chain'_append.mp ssort).1, ?_, ?_⟩
      · intro j2
        constructor
        · intro h
          have hj2sk : j2 ∈ sk₁ ++ [j] := List.mem_append_left _ h
          obtain ⟨hj2, hT2, hB2⟩ := (smem j2).mp hj2sk
          have hne : j2 ≠ j := fun hq => hins (hq ▸ h)
          refine ⟨hj2, List.mem_append_left _ hT2, fun hB => hB2 (hBug j2 hB hne)⟩
        · rintro ⟨hj2, hT2, hB2⟩
          by_cases hne : j2 = j
          · subst hne
            exact absurd hBnew hB2
          · have h6 : j2 ∈ sk₁ ++ [j] := (smem j2).mpr ⟨hj2, hTorig j2 hT2,
              fun hb => hB2 (List.mem_append_left _ hb)⟩
            rcases List.mem_append.mp h6 with h7 | h7
            · exact h7
            · rw [List.mem_singleton] at h7
              exact absurd h7 hne
      · intro x hx
        rcases List.mem_append.mp hx with h | h
        · rcases List.mem_append.mp h with h2 | h2
          · obtain ⟨p, hp, hed⟩ := mdep x h2
            exact ⟨p, List.mem_append_left _ hp, hed⟩
          · rw [List.mem_singleton] at h2
            subst h2
            exact ⟨_, List.mem_append_right _ (List.mem_singleton.mpr rfl), rfl⟩
        · rw [List.mem_singleton] at h
          subst h
          exact ⟨_, List.mem_append_right _ (List.mem_singleton.mpr rfl), rfl⟩
      · right
        refine ⟨done ++ [⟨true, dT, j⟩, ⟨false, (ivAt l j).base, j⟩], (ivAt l j).base, c2,
          by rw [hmgeq]; simp, hdone', ?_, hc, hc2len, hc2top, ?_⟩
        · intro x hx
          rcases List.mem_append.mp hx with h | h
          · exact le_trans (hbound x h) hdle
          · rcases List.mem_cons.mp h with h2 | h2
            · subst h2
              exact hdle
            · rw [List.mem_singleton] at h2
              subst h2
              exact le_refl _
        · intro j2 hj2 hB2 hltb
          by_cases hne : j2 = j
          · subst hne
            exact absurd hltb (lt_irrefl _)
          · have hB2p := hBug j2 hB2 hne
            have h6 : (ivAt l j2).base ≤ (ivAt l j).base := hpree _ hB2p
            exact absurd hltb (not_lt.mpr h6)
  · have hjm1 : j ∈ sk₁ := by
      rcases List.mem_append.mp hjsk with h | h
      · exact h
      · rw [List.mem_singleton] at h
        exact absurd h hji
    have herase : (sk₁ ++ [i]).erase j = sk₁.erase j ++ [i] :=
      List.erase_append_left _ hjm1
    have hjAi : le (A j) (A i) = true :=
      chain'_le_getLast _ (fun a b => htot (A a) (A b))
        (fun a b c hab hbc => htrans _ _ _ hab hbc) (sk₁ ++ [i]) ssort i hlast j hjsk
    refine ⟨mg, sk₁.erase j ++ [i],
      by rw [mergeStep_base_pass A le mg (sk₁ ++ [i]) i j ((ivAt l j).base) hlast hji hjsk,
        herase],
      ?_, ?_, ?_, ?_, ?_⟩
    · intro j2
      rw [← herase, List.Nodup.mem_erase_iff snd]
      constructor
      · rintro ⟨hne, h⟩
        obtain ⟨hj2, hT2, hB2⟩ := (smem j2).mp h
        exact ⟨hj2, List.mem_append_left _ hT2, fun hB => hB2 (hBug j2 hB hne)⟩
      · rintro ⟨hj2, hT2, hB2⟩
        have hne : j2 ≠ j := by
          rintro rfl
          exact hB2 hBnew
        refine ⟨hne, (smem j2).mpr ⟨hj2, hTorig j2 hT2,
          fun hb => hB2 (List.mem_append_left _ hb)⟩⟩
    · rw [← herase]
      exact snd.erase j
    · rw [← herase]
      exact chain'_erase (fun a b => le (A a) (A b))
        (fun a b c hab hbc => htrans _ _ _ hab hbc) j _ ssort
    · intro x hx
      obtain ⟨p, hp, hed⟩ := mdep x hx
      exact ⟨p, List.mem_append_left _ hp, hed⟩
    · right
      refine ⟨done, dT, i, hmgeq, hpd, hbound, List.getLast?_concat _, hi, htopi, ?_⟩
      intro j2 hj2 hB2 hltb
      by_cases hne : j2 = j
      · subst hne
        exact hjAi
      · exact hW j2 hj2 (hBug j2 hB2 hne) hltb

/-- The whole sweep preserves the invariant. -/
theorem sweep_run (A : ℕ → ℚ) (le : ℚ → ℚ → Bool)
    (htot : ∀ a b, le a b = true ∨ le b a = true)
    (htrans : ∀ a b c, le a b = true → le b c = true → le a c = true)
    (l : List Iv) (hdep : ∀ iv ∈ l, iv.top ≤ iv.base) :
    ∀ (suf pre : List TEntry) (mg : List TEntry) (sk : List ℕ),
      stripTable l = pre ++ suf →
      SweepInv A le l pre mg sk →
      ∀ res, mergeTableRun A le suf (mg, sk) = .ok res →
      SweepInv A le l (stripTable l) res.1 res.2 := by
  intro suf
  induction suf with
  | nil =>
    intro pre mg sk hsplit inv res hok
    rw [mergeTableRun] at hok
    injection hok with h
    subst h
    rw [List.append_nil] at hsplit
    rw [hsplit]
    exact inv
  | cons e rest ih =>
    intro pre mg sk hsplit inv res hok
    have hmemE : e ∈ stripTable l := by
      rw [hsplit]
      exact List.mem_append_right _ (List.mem_cons_self _ _)
    obtain ⟨hei, hwf⟩ := mem_stripTable_wf l e hmemE
    have hstep : ∃ mg' sk', mergeStep A le (mg, sk) e = .ok (mg', sk') ∧
        SweepInv A le l (pre ++ [e]) mg' sk' := by
      rcases hwf with hT | hB
      · exact sweep_step_top A le htot htrans l hdep pre rest e hsplit hT mg sk inv
      · exact sweep_step_base A le htot htrans l hdep pre rest e hsplit hB mg sk inv
    obtain ⟨mg', sk', heq, inv'⟩ := hstep
    rw [mergeTableRun, heq] at hok
    exact ih (pre ++ [e]) mg' sk' (by rw [hsplit]; simp) inv' res hok

theorem chain'_top_of_pieces (ps : List Piece) (hpos : ∀ q ∈ ps, q.top < q.base)
    (hch : List.Chain' (fun q r : Piece => q.base ≤ r.top) ps) :
    List.Chain' (fun a b : Piece => decide (a.top ≤ b.top) = true) ps := by
  induction ps with
  | nil => simp
  | cons q t ih =>
    rw [List.chain'_cons'] at hch ⊢
    refine ⟨?_, ih (fun p hp => hpos p (List.mem_cons_of_mem _ hp)) hch.2⟩
    intro w hw
    have h1 : q.base ≤ w.top := hch.1 w hw
    have h2 : q.top < q.base := hpos q (List.mem_cons_self _ _)
    simp only [decide_eq_true_eq]
    exact le_trans (le_of_lt h2) h1

/-- C1 (amended): for a striplog whose intervals all have `top <= base` (the
depth-order invariant), a successful `merge(attr, reverse)` returns a
depth-ordered Striplog whose intervals are pairwise non-overlapping (each base
at or above the next top), contain no zero-thickness pieces, and each carry the
content of a source interval (`src`) that covers the piece's span and wins
against every source interval covering that span — highest attribute value for
`reverse=False`, lowest for `reverse=True` (ties go to the later interval). -/
theorem merge_spec (A : ℕ → ℚ) (reverse : Bool) (l : List Iv)
    (hdep : ∀ iv ∈ l, iv.top ≤ iv.base)
    (so : SOrder) (ps : List Piece)
    (hok : stripMerge A reverse l = .ok (so, ps)) :
    so = .depth ∧
    (∀ q ∈ ps, q.top < q.base ∧ winsAt A (mergeLe reverse) l q.top q.base q.src) ∧
    List.Chain' (fun q r : Piece => q.base ≤ r.top) ps := by
  have htot : ∀ a b, mergeLe reverse a b = true ∨ mergeLe reverse b a = true := by
    intro a b
    cases reverse
    · simpa [mergeLe] using le_total a b
    · simpa [mergeLe] using le_total b a
  have htrans : ∀ a b c, mergeLe reverse a b = true → mergeLe reverse b c = true →
      mergeLe reverse a c = true := by
    intro a b c hab hbc
    cases reverse
    · simp [mergeLe] at hab hbc ⊢
      exact le_trans hab hbc
    · simp [mergeLe] at hab hbc ⊢
      exact le_trans hbc hab
  cases hmt : mergeTable A reverse l with
  | error er =>
    rw [stripMerge, hmt] at hok
    exact Except.noConfusion hok
  | ok tbl =>
    have hok2 : striplogFromMergeTable tbl = .ok (so, ps) := by
      rw [stripMerge, hmt] at hok
      exact hok
    have hrun : ∃ st, mergeTableRun A (mergeLe reverse) (stripTable l) ([], []) = .ok st ∧
        st.1 = tbl := by
      rw [mergeTable] at hmt
      cases hr : mergeTableRun A (mergeLe reverse) (stripTable l) ([], []) with
      | error er =>
        rw [hr] at hmt
        simp [Except.map] at hmt
      | ok st =>
        rw [hr] at hmt
        simp [Except.map] at hmt
        exact ⟨st, rfl, hmt⟩
    obtain ⟨st, hr, hst⟩ := hrun
    have hinv := sweep_run A (mergeLe reverse) htot htrans l hdep (stripTable l) [] [] []
      (by rw [List.nil_append]) (sweepInv_init A (mergeLe reverse) l) st hr
    have hpaired : Paired (winsAt A (mergeLe reverse) l) tbl := by
      rcases hinv.parse with ⟨_, hp⟩ | ⟨done, dT, i, _, _, _, hlast, hi, _, _⟩
      · rw [← hst]
        exact hp
      · exfalso
        have hlastmem : i ∈ st.2 := mem_of_getLast?_eq _ _ hlast
        obtain ⟨hi2, hT2, hB2⟩ := (hinv.stack_mem i).mp hlastmem
        exact hB2 (bEnt_mem_table l hdep i hi2)
    obtain ⟨hpos, hch, -⟩ := hpaired.pieces_spec
    rw [striplogFromMergeTable] at hok2
    cases hP : mergePieces tbl with
    | nil =>
      rw [hP] at hok2
      simp [striplogInitG] at hok2
    | cons q P2 =>
      rw [hP] at hok2 hpos hch
      have hqlt : q.top < q.base := (hpos q (List.mem_cons_self _ _)).1
      rw [striplogInitG_auto] at hok2
      rw [if_neg (by simp)] at hok2
      rw [if_neg (by
        simp only [List.all_cons, Bool.and_eq_true, decide_eq_true_eq]
        intro hcon
        exact absurd hcon.1 (ne_of_gt hqlt))] at hok2
      rw [if_pos (by
        simp only [List.all_eq_true, decide_eq_true_eq]
        intro p hp
        exact le_of_lt (hpos p hp).1)] at hok2
      rw [striplogCheck] at hok2
      rw [if_neg (by
        simp only [List.any_eq_true, decide_eq_true_eq, not_exists]
        rintro p ⟨hp, hlt2⟩
        exact absurd hlt2 (not_lt.mpr (le_of_lt (hpos p hp).1)))] at hok2
      rw [isortBy_of_chain' _ _
        (chain'_top_of_pieces _ (fun p hp => (hpos p hp).1) hch)] at hok2
      simp only [Except.ok.injEq, Prod.mk.injEq] at hok2
      obtain ⟨rfl, rfl⟩ := hok2
      exact ⟨rfl, hpos, hch⟩

/-- C1 counterexample to the unconditional claim: a perfectly valid
elevation-ordered Striplog (the constructor accepts it) makes `merge` raise an
IndexError instead of returning a Striplog: the depth-sorted event table of an
elevation striplog starts with a Base event, and `_merge_table` reads
`stack[-1]` off the then-empty stack. -/
theorem merge_crashes_on_elevation :
    striplogInit [Iv.mk 20 10 [], Iv.mk 10 0 []] .auto =
      .ok (.elevation, [Iv.mk 20 10 [], Iv.mk 10 0 []]) ∧
    stripMerge (fun _ => 0) false [Iv.mk 20 10 [], Iv.mk 10 0 []] =
      .error "IndexError" :=
  ⟨rfl, rfl⟩

theorem merge_spec_witness :
    SOrder.depth = SOrder.depth ∧
    (∀ q ∈ [Piece.mk 0 2 0, Piece.mk 2 4 1, Piece.mk 4 10 0], q.top < q.base ∧
      winsAt (fun i => [(1 : ℚ), 5].getD i 0) (mergeLe false)
        [Iv.mk 0 10 [1], Iv.mk 2 4 [2]] q.top q.base q.src) ∧
    List.Chain' (fun q r : Piece => q.base ≤ r.top)
      [Piece.mk 0 2 0, Piece.mk 2 4 1, Piece.mk 4 10 0] :=
  merge_spec (fun i => [(1 : ℚ), 5].getD i 0) false [Iv.mk 0 10 [1], Iv.mk 2 4 [2]]
    (by decide) .depth [Piece.mk 0 2 0, Piece.mk 2 4 1, Piece.mk 4 10 0] (by rfl)

end StriplogSpec
